import Mathlib

/-!
Verification development for the classic-UI theme renderer (theme.cpp).

The C++ source is shallowly embedded below: pure computations become Lean
functions, the cairo drawing calls are modelled as an explicit pixel-level
semantics, machine integers become Nat/Int, and C doubles are modelled as
exact rationals (for the values reachable here the double computations are
exact or round back to the exact value, as noted at each use).
-/

namespace ThemeSpec

/-! ### Definitions -/

/-- Display width of one code point (source `charWidth`): zero-width code
points count 0 cells, wide code points 2 cells, all others 1 cell.  The
glib classification predicates (g_unichar_iszerowidth, g_unichar_iswide)
are external; they are passed in as abstract predicates `zw` and `wide`. -/
def charWidth (zw wide : Nat → Bool) (c : Nat) : Nat :=
  if zw c then 0 else if wide c then 2 else 1

/-- Modelled from the spec: the separator set of
`stringutils::split(label, FCITX_WHITESPACE "-_/|")` (fcitx-utils, not under
src): whitespace (space, tab, LF, VT, FF, CR) plus `-`, `_`, `/`, `|`. -/
def isLabelSep (c : Nat) : Bool :=
  c == 32 || c == 9 || c == 10 || c == 11 || c == 12 || c == 13 ||
  c == 45 || c == 95 || c == 47 || c == 124

/-- Modelled from the spec: `texts[0]` of the split — the first maximal run
of non-separator code points (split drops empty tokens).  A label is a list
of code points (UTF-8 decoding is external). -/
def firstToken (label : List Nat) : List Nat :=
  (label.dropWhile isLabelSep).takeWhile (fun c => !isLabelSep c)

/-- The greedy loop of `extractTextForLabel`: append code points of the
first token while the running display width stays at most 3, returning the
extracted code points and the final width. -/
def extractGo (zw wide : Nat → Bool) : List Nat → Nat → List Nat × Nat
  | [], currentWidth => ([], currentWidth)
  | c :: rest, currentWidth =>
    let w := charWidth zw wide c
    if currentWidth + w ≤ 3 then
      let r := extractGo zw wide rest (currentWidth + w)
      (c :: r.1, r.2)
    else ([], currentWidth)

/-- Source `extractTextForLabel`: split the label, return ("", 0) when
there is no token, else greedily extract an abbreviation from the first
token together with its display width. -/
def extractTextForLabel (zw wide : Nat → Bool) (label : List Nat) : List Nat × Nat :=
  let texts := firstToken label
  if texts = [] then ([], 0) else extractGo zw wide texts 0

/-- Total display width of a list of code points. -/
def widthSum (zw wide : Nat → Bool) (l : List Nat) : Nat :=
  (l.map (charWidth zw wide)).sum

/-- Source `drawTextIcon` font size computation:
`int pixelSize = size * 0.75 * (textWidth >= 3 ? (2.0 / textWidth) : 1.0);`
followed by `if (pixelSize < 0) pixelSize = 1;`.  The double arithmetic is
modelled exactly over the rationals; for the reachable inputs
(`textWidth ≤ 3`, so the factor is 1 or 2/3) the double computation yields
exactly the correctly rounded value and truncation agrees with the exact
rational truncation.  The conversion double → int truncates toward zero;
the operand is nonnegative, so truncation equals the floor. -/
def drawTextIconPixelSize (size textWidth : Nat) : Int :=
  let q : ℚ := (size : ℚ) * (3 / 4) * (if 3 ≤ textWidth then 2 / (textWidth : ℚ) else 1)
  let p : Int := ⌊q⌋
  if p < 0 then 1 else p

/-- A produced pixel surface, tagged by how it was produced.  `decoded`
abstracts a successfully decoded image file (decoding itself is external). -/
inductive Surface where
  | decoded (tag : Nat)
  | textIcon (label : String) (size : Nat)
  | solidBackground (width height borderWidth : Nat)
deriving DecidableEq

/-- Tray-icon `ThemeImage` constructor.  `decode` is the abstract result of
`loadImage` on the icon file (`none` = missing file / decode failure /
bad surface status).  Mirrors the nullability of `image_` through the
control flow: a failed or skipped load falls through to the text icon. -/
def ThemeImage.ofTray (twoKeyboards preferTextConfig : Bool) (icon label : String)
    (size : Nat) (decode : Option Nat) : Option Surface :=
  let preferTextIcon : Bool :=
    !(label == "") && (((icon == "input-keyboard") && twoKeyboards) || preferTextConfig)
  let image : Option Surface :=
    if !preferTextIcon && !(icon == "") then decode.map Surface.decoded else none
  match image with
  | some s => some s
  | none => some (Surface.textIcon label size)

/-- Background `ThemeImage` constructor (the overlay load is independent
and does not affect `image_`).  A failed or skipped load falls through to
the procedurally drawn bordered solid background with the dimensions and
border width computed in the source. -/
def ThemeImage.ofBackground (imageRefEmpty : Bool) (decode : Option Nat)
    (marginLeft marginRight marginTop marginBottom borderWidth : Nat) : Option Surface :=
  let image : Option Surface :=
    if imageRefEmpty = false then decode.map Surface.decoded else none
  match image with
  | some s => some s
  | none =>
    let minimumSize := 20
    let width := marginLeft + marginRight + max (marginLeft + marginRight) minimumSize
    let height := marginTop + marginBottom + max (marginTop + marginBottom) minimumSize
    let bw := min borderWidth (min marginLeft (min marginRight (min marginTop marginBottom)))
    some (Surface.solidBackground width height bw)

/-- Action `ThemeImage` constructor: there is no fallback path — an empty
image reference or a failed load leaves `image_` null. -/
def ThemeImage.ofAction (imageRefEmpty : Bool) (decode : Option Nat) : Option Surface :=
  if imageRefEmpty = false then decode.map Surface.decoded else none

/-- Association-list lookup, the model of `findValue` on the
`std::unordered_map` caches. -/
def findValue {α β : Type} [DecidableEq α] : List (α × β) → α → Option β
  | [], _ => none
  | (k, v) :: rest, key => if k = key then some v else findValue rest key

/-- Erase the (unique, under the no-duplicate-keys invariant) entry with
the given key: the model of `map.erase(name)`. -/
def eraseKey {α β : Type} [DecidableEq α] : List (α × β) → α → List (α × β)
  | [], _ => []
  | (k, v) :: rest, key => if k = key then rest else (k, v) :: eraseKey rest key

/-- The fields that determine a tray `ThemeImage`
(`ThemeImage(iconTheme_, icon, label, size, classicui)`); its identity is
determined by these inputs, build is deterministic. -/
structure TrayImage where
  iconThemeName : String
  icon : String
  label : String
  size : Nat
deriving DecidableEq

/-- The fields that determine a background `ThemeImage`
(`ThemeImage(name_, cfg)`); the config is identified by its address,
modelled as an opaque numeric identity. -/
structure BgImage where
  themeName : String
  cfgId : Nat
deriving DecidableEq

/-- The fields that determine an action `ThemeImage`. -/
structure ActImage where
  themeName : String
  cfgId : Nat
deriving DecidableEq

/-- The cache-relevant state of a `Theme`. -/
structure ThemeState where
  name : String
  iconThemeName : String
  trayImageTable : List (String × TrayImage)
  backgroundImageTable : List (Nat × BgImage)
  actionImageTable : List (Nat × ActImage)
deriving DecidableEq

/-- Source `Theme::loadBackground`: return the cached entry, else build and
emplace.  The returned Bool records whether the build was invoked. -/
def Theme.loadBackground (st : ThemeState) (cfg : Nat) : ThemeState × BgImage × Bool :=
  match findValue st.backgroundImageTable cfg with
  | some image => (st, image, false)
  | none =>
    let image : BgImage := ⟨st.name, cfg⟩
    ({ st with backgroundImageTable := (cfg, image) :: st.backgroundImageTable }, image, true)

/-- Source `Theme::loadAction`. -/
def Theme.loadAction (st : ThemeState) (cfg : Nat) : ThemeState × ActImage × Bool :=
  match findValue st.actionImageTable cfg with
  | some image => (st, image, false)
  | none =>
    let image : ActImage := ⟨st.name, cfg⟩
    ({ st with actionImageTable := (cfg, image) :: st.actionImageTable }, image, true)

/-- The tray cache key `stringutils::concat("icon:", icon, "label:", label)`. -/
def trayKey (icon label : String) : String :=
  "icon:" ++ icon ++ "label:" ++ label

/-- Source `Theme::loadImage` (tray images): a cache hit with matching size
is returned as is; a hit with a different size is erased; a miss (or after
the erase) builds and emplaces a fresh image at the requested size. -/
def Theme.loadImage (st : ThemeState) (icon label : String) (size : Nat) :
    ThemeState × TrayImage × Bool :=
  let name := trayKey icon label
  match findValue st.trayImageTable name with
  | some image =>
    if image.size = size then (st, image, false)
    else
      let newImage : TrayImage := ⟨st.iconThemeName, icon, label, size⟩
      ({ st with trayImageTable := (name, newImage) :: eraseKey st.trayImageTable name },
        newImage, true)
  | none =>
    let newImage : TrayImage := ⟨st.iconThemeName, icon, label, size⟩
    ({ st with trayImageTable := (name, newImage) :: st.trayImageTable }, newImage, true)

/-- Source `Theme::reset`: clear all three caches. -/
def Theme.reset (st : ThemeState) : ThemeState :=
  { st with trayImageTable := [], backgroundImageTable := [], actionImageTable := [] }

/-- Source `Theme::setIconTheme`.  `IconTheme(name).internalName()` is
modelled from the spec as `name` itself (the `IconTheme` class is external
to src); the claim only depends on the inequality test and the cache
effects. -/
def Theme.setIconTheme (st : ThemeState) (name : String) : ThemeState × Bool :=
  if st.iconThemeName ≠ name then
    ({ st with iconThemeName := name, trayImageTable := [] }, true)
  else (st, false)

/-- No-duplicate-keys invariant of a cache table. -/
def keysNodup {α β : Type} [DecidableEq α] (t : List (α × β)) : Prop :=
  (t.map Prod.fst).Nodup

/-- The 9-way overlay gravity enum (3-by-3 grid: rows top/center/bottom,
columns left/center/right). -/
inductive Gravity where
  | topLeft | topCenter | topRight
  | centerLeft | center | centerRight
  | bottomLeft | bottomCenter | bottomRight
deriving DecidableEq

/-- Nine-patch margins (MarginConfig): non-negative fixed border sizes. -/
structure Margin where
  marginLeft : Nat
  marginRight : Nat
  marginTop : Nat
  marginBottom : Nat
deriving DecidableEq

/-- The paint-relevant fields of BackgroundImageConfig. -/
structure BackgroundImageConfig where
  margin : Margin
  overlayClipMargin : Margin
  gravity : Gravity
  overlayOffsetX : Int
  overlayOffsetY : Int
  hideOverlayIfOversize : Bool
deriving DecidableEq

/-- An image surface: dimensions and pixel contents (decoding is
external). -/
structure Img where
  width : Nat
  height : Nat
  px : Nat → Nat → Nat

/-- A loaded background ThemeImage: the main image and the optional
overlay surface. -/
structure ThemeImageSurfaces where
  image : Img
  overlay : Option Img

def marginL (cfg : BackgroundImageConfig) : Int := cfg.margin.marginLeft

def marginR (cfg : BackgroundImageConfig) : Int := cfg.margin.marginRight

def marginT (cfg : BackgroundImageConfig) : Int := cfg.margin.marginTop

def marginB (cfg : BackgroundImageConfig) : Int := cfg.margin.marginBottom

/-- Source stretchable width `imageWidth - marginLeft - marginRight`,
clamped up to 1 when non-positive. -/
def resizeWidth (cfg : BackgroundImageConfig) (img : ThemeImageSurfaces) : Int :=
  if (img.image.width : Int) - marginL cfg - marginR cfg ≤ 0 then 1
  else (img.image.width : Int) - marginL cfg - marginR cfg

/-- Source stretchable height, clamped up to 1 when non-positive. -/
def resizeHeight (cfg : BackgroundImageConfig) (img : ThemeImageSurfaces) : Int :=
  if (img.image.height : Int) - marginT cfg - marginB cfg ≤ 0 then 1
  else (img.image.height : Int) - marginT cfg - marginB cfg

/-- Effective target width: a negative request is the sentinel selecting
the source resize width. -/
def effWidth (cfg : BackgroundImageConfig) (img : ThemeImageSurfaces) (width : Int) : Int :=
  if width < 0 then resizeWidth cfg img else width

/-- Effective target height (negative sentinel as for the width). -/
def effHeight (cfg : BackgroundImageConfig) (img : ThemeImageSurfaces) (height : Int) : Int :=
  if height < 0 then resizeHeight cfg img else height

/-- Target stretch width `width - marginLeft - marginRight`. -/
def targetResizeW (cfg : BackgroundImageConfig) (img : ThemeImageSurfaces) (w0 : Int) : Int :=
  effWidth cfg img w0 - marginL cfg - marginR cfg

/-- Target stretch height `height - marginTop - marginBottom`. -/
def targetResizeH (cfg : BackgroundImageConfig) (img : ThemeImageSurfaces) (h0 : Int) : Int :=
  effHeight cfg img h0 - marginT cfg - marginB cfg

/-- Horizontal scale factor (the source double is modelled as an exact
rational). -/
def scaleXq (cfg : BackgroundImageConfig) (img : ThemeImageSurfaces) (w0 : Int) : ℚ :=
  (targetResizeW cfg img w0 : ℚ) / (resizeWidth cfg img : ℚ)

/-- Vertical scale factor. -/
def scaleYq (cfg : BackgroundImageConfig) (img : ThemeImageSurfaces) (h0 : Int) : ℚ :=
  (targetResizeH cfg img h0 : ℚ) / (resizeHeight cfg img : ℚ)

/-- Modelled from the spec: the integer Rect of fcitx-utils rect.h
(position and size, with intersection and containment tests);
`right`/`bottom` are the exclusive far edges. -/
structure Rect where
  left : Int
  top : Int
  width : Int
  height : Int
deriving DecidableEq

def Rect.right (r : Rect) : Int := r.left + r.width

def Rect.bottom (r : Rect) : Int := r.top + r.height

/-- Modelled from the spec: a Rect is empty when a side is non-positive. -/
def Rect.isEmpty (r : Rect) : Prop := r.width ≤ 0 ∨ r.height ≤ 0

instance (r : Rect) : Decidable r.isEmpty := by
  unfold Rect.isEmpty
  infer_instance

/-- Modelled from the spec: rectangle intersection, empty on no overlap. -/
def Rect.intersected (a b : Rect) : Rect :=
  if max a.left b.left ≤ min a.right b.right ∧ max a.top b.top ≤ min a.bottom b.bottom then
    ⟨max a.left b.left, max a.top b.top,
      min a.right b.right - max a.left b.left, min a.bottom b.bottom - max a.top b.top⟩
  else ⟨0, 0, 0, 0⟩

/-- Modelled from the spec: `a.contains b` — b lies entirely inside a. -/
def Rect.contains (a b : Rect) : Prop :=
  a.left ≤ b.left ∧ a.top ≤ b.top ∧ b.right ≤ a.right ∧ b.bottom ≤ a.bottom

instance (a b : Rect) : Decidable (a.contains b) := by
  unfold Rect.contains
  infer_instance

/-- The x-placement switch of the overlay in Theme::paint (C++ integer
division truncates toward zero, hence `Int.tdiv`). -/
def overlayXPos (g : Gravity) (offX width ow : Int) : Int :=
  match g with
  | .topLeft | .centerLeft | .bottomLeft => offX
  | .topCenter | .center | .bottomCenter => Int.tdiv (width - ow) 2 + offX
  | .topRight | .centerRight | .bottomRight => width - ow - offX

/-- The y-placement switch of the overlay in Theme::paint. -/
def overlayYPos (g : Gravity) (offY height oh : Int) : Int :=
  match g with
  | .topLeft | .topCenter | .topRight => offY
  | .centerLeft | .center | .centerRight => Int.tdiv (height - oh) 2 + offY
  | .bottomLeft | .bottomCenter | .bottomRight => height - oh - offY

/-- The overlay clip rectangle: target size shrunk by the overlay clip
margins, positioned at the left/top clip margins. -/
def overlayClipRect (cfg : BackgroundImageConfig) (width height : Int) : Rect :=
  ⟨(cfg.overlayClipMargin.marginLeft : Int), (cfg.overlayClipMargin.marginTop : Int),
    width - (cfg.overlayClipMargin.marginLeft : Int) - (cfg.overlayClipMargin.marginRight : Int),
    height - (cfg.overlayClipMargin.marginTop : Int) - (cfg.overlayClipMargin.marginBottom : Int)⟩

/-- The overlay placement rectangle from gravity and offsets. -/
def overlayPlaceRect (cfg : BackgroundImageConfig) (ov : Img) (width height : Int) : Rect :=
  ⟨overlayXPos cfg.gravity cfg.overlayOffsetX width (ov.width : Int),
    overlayYPos cfg.gravity cfg.overlayOffsetY height (ov.height : Int),
    (ov.width : Int), (ov.height : Int)⟩

/-- The painted overlay rectangle: placement intersected with the clip. -/
def overlayFinalRect (cfg : BackgroundImageConfig) (ov : Img) (width height : Int) : Rect :=
  (overlayPlaceRect cfg ov width height).intersected (overlayClipRect cfg width height)

/-- What a device pixel shows: a background-image pixel or an overlay
pixel, by source coordinates (possibly outside the surface bounds). -/
inductive Shown where
  | bg (sx sy : Int)
  | ov (sx sy : Int)
deriving DecidableEq

/-- Device pixel (X,Y) is sampled at its center (X+1/2, Y+1/2). -/
def pixelCenter (X : Int) : ℚ := (X : ℚ) + 1 / 2

/-- Coverage of one cairo paint step `translate (tx,ty); scale (sx,sy);
rectangle (0,0,cw,ch); clip`: the clip covers device
[tx, tx+sx*cw) x [ty, ty+sy*ch); a pixel is painted when its center lies
inside. -/
def inClip (cx cy tx ty sx sy cw ch : ℚ) : Prop :=
  tx ≤ cx ∧ cx < tx + sx * cw ∧ ty ≤ cy ∧ cy < ty + sy * ch

instance (cx cy tx ty sx sy cw ch : ℚ) : Decidable (inClip cx cy tx ty sx sy cw ch) := by
  unfold inClip
  infer_instance

/-- The source pixel sampled under a device coordinate c for a source
placed at offset o and scaled by s (nearest sample; exact for the
unscaled and integer-scale steps the claims concern). -/
def srcCoord (c t s o : ℚ) : Int := ⌊(c - t) / s - o⌋

/-- The nine-patch part of Theme::paint, pixel-level.  The source paints
parts 1,3,7,9,2,8,4,6,5 in this order, each save/clip/paint step
overwriting what it covers, so a pixel shows the LAST covering part: the
conditions below test the parts in reverse paint order and return the
first match.  Each condition is the source guard conjoined with the
device-space clip of that part; each value is the source pixel under the
device pixel center.  The uniform alpha multiplier is not modelled (the
claims are about alpha 1). -/
def bgShowsAt (cfg : BackgroundImageConfig) (img : ThemeImageSurfaces)
    (w0 h0 X Y : Int) : Option Shown :=
  if 0 < targetResizeH cfg img h0 ∧ 0 < targetResizeW cfg img w0 ∧
      inClip (pixelCenter X) (pixelCenter Y) (marginL cfg : ℚ) (marginT cfg : ℚ)
        (scaleXq cfg img w0) (scaleYq cfg img h0)
        (resizeWidth cfg img : ℚ) (resizeHeight cfg img : ℚ) then
    -- part 5: center, scaled on both axes, NEAREST filter
    some (.bg
      (srcCoord (pixelCenter X) (marginL cfg : ℚ) (scaleXq cfg img w0) ((-marginL cfg : Int) : ℚ))
      (srcCoord (pixelCenter Y) (marginT cfg : ℚ) (scaleYq cfg img h0) ((-marginT cfg : Int) : ℚ)))
  else if marginR cfg ≠ 0 ∧ 0 < targetResizeH cfg img h0 ∧
      inClip (pixelCenter X) (pixelCenter Y)
        ((effWidth cfg img w0 - marginR cfg : Int) : ℚ) (marginT cfg : ℚ)
        1 (scaleYq cfg img h0) (marginR cfg : ℚ) (resizeHeight cfg img : ℚ) then
    -- part 6: right edge, scaled in y
    some (.bg
      (srcCoord (pixelCenter X) ((effWidth cfg img w0 - marginR cfg : Int) : ℚ) 1
        ((-marginL cfg - resizeWidth cfg img : Int) : ℚ))
      (srcCoord (pixelCenter Y) (marginT cfg : ℚ) (scaleYq cfg img h0) ((-marginT cfg : Int) : ℚ)))
  else if marginL cfg ≠ 0 ∧ 0 < targetResizeH cfg img h0 ∧
      inClip (pixelCenter X) (pixelCenter Y) ((0 : Int) : ℚ) (marginT cfg : ℚ)
        1 (scaleYq cfg img h0) (marginL cfg : ℚ) (resizeHeight cfg img : ℚ) then
    -- part 4: left edge, scaled in y
    some (.bg (srcCoord (pixelCenter X) ((0 : Int) : ℚ) 1 ((0 : Int) : ℚ))
      (srcCoord (pixelCenter Y) (marginT cfg : ℚ) (scaleYq cfg img h0) ((-marginT cfg : Int) : ℚ)))
  else if marginB cfg ≠ 0 ∧ 0 < targetResizeW cfg img w0 ∧
      inClip (pixelCenter X) (pixelCenter Y) (marginL cfg : ℚ)
        ((effHeight cfg img h0 - marginB cfg : Int) : ℚ)
        (scaleXq cfg img w0) 1 (resizeWidth cfg img : ℚ) (marginB cfg : ℚ) then
    -- part 8: bottom edge, scaled in x
    some (.bg
      (srcCoord (pixelCenter X) (marginL cfg : ℚ) (scaleXq cfg img w0) ((-marginL cfg : Int) : ℚ))
      (srcCoord (pixelCenter Y) ((effHeight cfg img h0 - marginB cfg : Int) : ℚ) 1
        ((-marginT cfg - resizeHeight cfg img : Int) : ℚ)))
  else if marginT cfg ≠ 0 ∧ 0 < targetResizeW cfg img w0 ∧
      inClip (pixelCenter X) (pixelCenter Y) (marginL cfg : ℚ) ((0 : Int) : ℚ)
        (scaleXq cfg img w0) 1 (resizeWidth cfg img : ℚ) (marginT cfg : ℚ) then
    -- part 2: top edge, scaled in x
    some (.bg
      (srcCoord (pixelCenter X) (marginL cfg : ℚ) (scaleXq cfg img w0) ((-marginL cfg : Int) : ℚ))
      (srcCoord (pixelCenter Y) ((0 : Int) : ℚ) 1 ((0 : Int) : ℚ)))
  else if marginR cfg ≠ 0 ∧ marginT cfg ≠ 0 ∧
      inClip (pixelCenter X) (pixelCenter Y)
        ((effWidth cfg img w0 - marginR cfg : Int) : ℚ) ((0 : Int) : ℚ)
        1 1 (marginR cfg : ℚ) (marginT cfg : ℚ) then
    -- part 9: top right corner
    some (.bg
      (srcCoord (pixelCenter X) ((effWidth cfg img w0 - marginR cfg : Int) : ℚ) 1
        ((-marginL cfg - resizeWidth cfg img : Int) : ℚ))
      (srcCoord (pixelCenter Y) ((0 : Int) : ℚ) 1 ((0 : Int) : ℚ)))
  else if marginL cfg ≠ 0 ∧ marginT cfg ≠ 0 ∧
      inClip (pixelCenter X) (pixelCenter Y) ((0 : Int) : ℚ) ((0 : Int) : ℚ)
        1 1 (marginL cfg : ℚ) (marginT cfg : ℚ) then
    -- part 7: top left corner
    some (.bg (srcCoord (pixelCenter X) ((0 : Int) : ℚ) 1 ((0 : Int) : ℚ))
      (srcCoord (pixelCenter Y) ((0 : Int) : ℚ) 1 ((0 : Int) : ℚ)))
  else if marginR cfg ≠ 0 ∧ marginB cfg ≠ 0 ∧
      inClip (pixelCenter X) (pixelCenter Y)
        ((effWidth cfg img w0 - marginR cfg : Int) : ℚ)
        ((effHeight cfg img h0 - marginB cfg : Int) : ℚ)
        1 1 (marginR cfg : ℚ) (marginB cfg : ℚ) then
    -- part 3: bottom right corner
    some (.bg
      (srcCoord (pixelCenter X) ((effWidth cfg img w0 - marginR cfg : Int) : ℚ) 1
        ((-marginL cfg - resizeWidth cfg img : Int) : ℚ))
      (srcCoord (pixelCenter Y) ((effHeight cfg img h0 - marginB cfg : Int) : ℚ) 1
        ((-marginT cfg - resizeHeight cfg img : Int) : ℚ)))
  else if marginL cfg ≠ 0 ∧ marginB cfg ≠ 0 ∧
      inClip (pixelCenter X) (pixelCenter Y) ((0 : Int) : ℚ)
        ((effHeight cfg img h0 - marginB cfg : Int) : ℚ)
        1 1 (marginL cfg : ℚ) (marginB cfg : ℚ) then
    -- part 1: bottom left corner
    some (.bg (srcCoord (pixelCenter X) ((0 : Int) : ℚ) 1 ((0 : Int) : ℚ))
      (srcCoord (pixelCenter Y) ((effHeight cfg img h0 - marginB cfg : Int) : ℚ) 1
        ((-marginT cfg - resizeHeight cfg img : Int) : ℚ)))
  else none

/-- The overlay step of Theme::paint applied over the painted background
result `r`: a no-op (returning `r`) when the clip is degenerate, the
intersection with the clip is empty, or the oversize rule hides the
overlay (the containment test uses the UNCLIPPED placement rectangle);
otherwise pixels inside the intersection show the overlay, painted with
operator OVER and offset so the visible portion aligns. -/
def overlayApply (cfg : BackgroundImageConfig) (ov : Img) (width height X Y : Int)
    (r : Option Shown) : Option Shown :=
  if (overlayClipRect cfg width height).width ≤ 0 ∨
      (overlayClipRect cfg width height).height ≤ 0 then r
  else if (overlayFinalRect cfg ov width height).isEmpty then r
  else if cfg.hideOverlayIfOversize = true ∧
      ¬ (overlayClipRect cfg width height).contains (overlayPlaceRect cfg ov width height) then r
  else if inClip (pixelCenter X) (pixelCenter Y)
      ((overlayFinalRect cfg ov width height).left : ℚ)
      ((overlayFinalRect cfg ov width height).top : ℚ) 1 1
      ((overlayFinalRect cfg ov width height).width : ℚ)
      ((overlayFinalRect cfg ov width height).height : ℚ) then
    some (.ov
      (srcCoord (pixelCenter X) ((overlayFinalRect cfg ov width height).left : ℚ) 1
        (((overlayPlaceRect cfg ov width height).left -
          (overlayFinalRect cfg ov width height).left : Int) : ℚ))
      (srcCoord (pixelCenter Y) ((overlayFinalRect cfg ov width height).top : ℚ) 1
        (((overlayPlaceRect cfg ov width height).top -
          (overlayFinalRect cfg ov width height).top : Int) : ℚ)))
  else r

/-- Theme::paint, pixel-level: the nine-patch background, then — only when
an overlay surface is present — the overlay placement logic. -/
def paintShowsAt (cfg : BackgroundImageConfig) (img : ThemeImageSurfaces)
    (w0 h0 X Y : Int) : Option Shown :=
  match img.overlay with
  | none => bgShowsAt cfg img w0 h0 X Y
  | some ov =>
    overlayApply cfg ov (effWidth cfg img w0) (effHeight cfg img h0) X Y
      (bgShowsAt cfg img w0 h0 X Y)

/-- Sampling a surface with cairo EXTEND_NONE: out of bounds is
transparent (value 0). -/
def sampleImg (i : Img) (x y : Int) : Nat :=
  if 0 ≤ x ∧ x < (i.width : Int) ∧ 0 ≤ y ∧ y < (i.height : Int) then i.px x.toNat y.toNat
  else 0

/-- The composited pixel value on a fresh (transparent) canvas. -/
def shownValue (img : ThemeImageSurfaces) (s : Option Shown) : Nat :=
  match s with
  | none => 0
  | some (.bg x y) => sampleImg img.image x y
  | some (.ov x y) =>
    match img.overlay with
    | some ovi => sampleImg ovi x y
    | none => 0

/-- The composited pixel value of Theme::paint at device pixel (X,Y). -/
def paintPixel (cfg : BackgroundImageConfig) (img : ThemeImageSurfaces)
    (w0 h0 X Y : Int) : Nat :=
  shownValue img (paintShowsAt cfg img w0 h0 X Y)

/-- Spec side: how one axis of the 9-way gravity grid resolves. -/
inductive AxisReso where
  | nearEdge | centered | farEdge
deriving DecidableEq

/-- Spec side: the column third of the gravity grid. -/
def gravityCol : Gravity → AxisReso
  | .topLeft | .centerLeft | .bottomLeft => .nearEdge
  | .topCenter | .center | .bottomCenter => .centered
  | .topRight | .centerRight | .bottomRight => .farEdge

/-- Spec side: the row third of the gravity grid. -/
def gravityRow : Gravity → AxisReso
  | .topLeft | .topCenter | .topRight => .nearEdge
  | .centerLeft | .center | .centerRight => .centered
  | .bottomLeft | .bottomCenter | .bottomRight => .farEdge

/-- Spec side: near edge + offset, centered + offset, far edge − offset. -/
def resolveAxis (a : AxisReso) (off target extent : Int) : Int :=
  match a with
  | .nearEdge => off
  | .centered => Int.tdiv (target - extent) 2 + off
  | .farEdge => target - extent - off

/-- Run-scan state of the row loop in Theme::mask: `all` is the current
run value (false = in a 0-run, true = in a 1-run; the source stores 0 or
0xFF), `prev1` the start of the open 1-run, `spans` the spans emitted so
far, in order, as (start, stop) with stop exclusive. -/
structure SpanScan where
  all : Bool
  prev1 : Nat
  spans : List (Nat × Nat)
deriving DecidableEq

/-- One bit of the scan: a bit equal to the run value changes nothing; a
1→0 transition at x emits the span [prev1, x) (the AddSpan macro); a 0→1
transition records prev1 = x. -/
def stepBit (x : Nat) (bit : Bool) (s : SpanScan) : SpanScan :=
  if bit = s.all then s
  else if s.all then ⟨false, s.prev1, s.spans ++ [(s.prev1, x)]⟩
  else ⟨true, x, s.spans⟩

/-- The first n bits of a byte, least significant first (the
little-endian branch of the source, chosen by constexpr). -/
def byteBits (byte n : Nat) : List Bool :=
  match n with
  | 0 => []
  | m + 1 => decide (byte % 2 = 1) :: byteBits (byte / 2) m

/-- The inner bit loop `for b = 8; b > 0 && x < width`: scan n bits of
one byte starting at position x, shifting the byte right each step. -/
def stepBits (byte x n : Nat) (s : SpanScan) : SpanScan :=
  match n with
  | 0 => s
  | m + 1 => stepBits (byte / 2) (x + 1) m (stepBit x (decide (byte % 2 = 1)) s)

/-- Reference bit-list scanner (one stepBit per bit). -/
def scanBits : List Bool → Nat → SpanScan → SpanScan
  | [], _, s => s
  | b :: rest, x, s => scanBits rest (x + 1) (stepBit x b s)

/-- The outer loop of the row scan: per iteration the current byte is
`data[x / 8]`; when at least 8 bits remain and the whole byte matches the
running pattern (0 or 0xFF) the byte is skipped, else min 8 (width − x)
of its bits are scanned one by one. -/
def scanRowGo : List Nat → Nat → Nat → SpanScan → SpanScan
  | [], _, _, s => s
  | byte :: rest, width, x, s =>
    if x < width then
      if 8 ≤ width - x ∧ byte = (if s.all then 255 else 0) then
        scanRowGo rest width (x + 8) s
      else
        scanRowGo rest width (x + 8) (stepBits byte x (min 8 (width - x)) s)
    else s

/-- The trailing `if (all != zero) AddSpan` after the row loop (the loop
always exits with x = width). -/
def finalizeScan (s : SpanScan) (width : Nat) : List (Nat × Nat) :=
  if s.all then s.spans ++ [(s.prev1, width)] else s.spans

/-- One row of Theme::mask: the packed bytes of the row scanned into the
maximal 1-spans of bit positions below width. -/
def scanRow (bytes : List Nat) (width : Nat) : List (Nat × Nat) :=
  finalizeScan (scanRowGo bytes width 0 ⟨false, 0, []⟩) width

/-- All bits of a byte row, least significant bit of each byte first. -/
def bytesBits : List Nat → List Bool
  | [] => []
  | b :: rest => byteBits b 8 ++ bytesBits rest

/-- Bit x of a packed row: bit (x mod 8) of byte x / 8 (little-endian
packing, as in the A1 raster the source scans). -/
def rowBit (bytes : List Nat) (x : Nat) : Bool :=
  (bytes.getD (x / 8) 0).testBit (x % 8)

/-- Reference form of the row scan result: the maximal 1-runs of a bit
list starting at position x, with an optionally open run carried in. -/
def runsAux : List Bool → Nat → Option Nat → List (Nat × Nat)
  | [], x, some st => [(st, x)]
  | [], _, none => []
  | b :: rest, x, some st =>
    if b then runsAux rest (x + 1) (some st) else (st, x) :: runsAux rest (x + 1) none
  | b :: rest, x, none =>
    if b then runsAux rest (x + 1) (some x) else runsAux rest (x + 1) none

/-- Modelled from the spec: the cairo_region rectangle accumulator (the
region library is external to the repository).  A pixman region is kept
canonical — y-bands of x-spans with adjacent bands holding identical span
lists coalesced — and the scan inserts single-row spans top to bottom, so
the final region groups maximal runs of equal consecutive rows into
bands.  `bands` returns (bandHeight, spans) groups. -/
def bands : List (List (Nat × Nat)) → List (Nat × List (Nat × Nat))
  | [] => []
  | r :: rest =>
    match bands rest with
    | [] => [(1, r)]
    | (hh, r2) :: bs => if r = r2 then (hh + 1, r) :: bs else (1, r) :: (hh, r2) :: bs

/-- Expand band groups back to their rows (proof device). -/
def flattenBands : List (Nat × List (Nat × Nat)) → List (List (Nat × Nat))
  | [] => []
  | (hh, r) :: bs => List.replicate hh r ++ flattenBands bs

/-- Emit one Rect per span of each band; `y` is the band's top row. -/
def emitBands (y : Nat) : List (Nat × List (Nat × Nat)) → List Rect
  | [] => []
  | (hh, spans) :: bs =>
    spans.map (fun sp => ⟨(sp.1 : Int), (y : Int), ((sp.2 - sp.1 : Nat) : Int), (hh : Int)⟩) ++
      emitBands (y + hh) bs

/-- Pixel (x,y) lies inside Rect r. -/
def Rect.containsPt (r : Rect) (x y : Int) : Prop :=
  r.left ≤ x ∧ x < r.left + r.width ∧ r.top ≤ y ∧ y < r.top + r.height

instance (r : Rect) (x y : Int) : Decidable (r.containsPt x y) := by
  unfold Rect.containsPt
  infer_instance

/-- Theme::mask: the background is rendered at the target size into a
1-bit raster (cairo rasterization is external — the raster's byte rows
are the input here), each of the `height` rows is scanned into its
1-spans, and the spans are unioned into a region returned as a list of
rectangles. -/
def Theme.mask (rows : List (List Nat)) (width height : Nat) : List Rect :=
  emitBands 0 (bands ((List.range height).map (fun y => scanRow (rows.getD y []) width)))

/-! ### Theorems -/

/-- Helper: a key absent from `findValue` is absent from the key list. -/
theorem findValue_eq_none_iff {α β : Type} [DecidableEq α] (t : List (α × β)) (k : α) :
    findValue t k = none ↔ k ∉ t.map Prod.fst := by
  induction t with
  | nil => simp [findValue]
  | cons p rest ih =>
    obtain ⟨k', v⟩ := p
    by_cases h : k' = k
    · subst h
      simp [findValue]
    · simp only [findValue, if_neg h, List.map_cons, List.mem_cons, ih]
      constructor
      · intro hn hor
        rcases hor with he | hm
        · exact h he.symm
        · exact hn hm
      · intro hn hm
        exact hn (Or.inr hm)

/-- Helper: erasing a key then looking up a different key is unchanged. -/
theorem findValue_eraseKey_ne {α β : Type} [DecidableEq α] (t : List (α × β)) (k k' : α)
    (h : k' ≠ k) : findValue (eraseKey t k) k' = findValue t k' := by
  induction t with
  | nil => simp [eraseKey]
  | cons p rest ih =>
    obtain ⟨k₀, v⟩ := p
    by_cases h0 : k₀ = k
    · subst h0
      have h1 : ¬ k₀ = k' := fun hh => h hh.symm
      simp [eraseKey, findValue, h1]
    · have he : eraseKey ((k₀, v) :: rest) k = (k₀, v) :: eraseKey rest k := by
        simp [eraseKey, h0]
      by_cases h1 : k₀ = k'
      · subst h1
        rw [he]
        simp [findValue]
      · simp [he, findValue, h1, ih]

/-- Helper: `eraseKey` returns a sublist of the table. -/
theorem eraseKey_sublist {α β : Type} [DecidableEq α] (t : List (α × β)) (k : α) :
    (eraseKey t k).Sublist t := by
  induction t with
  | nil => simp [eraseKey]
  | cons p rest ih =>
    obtain ⟨k₀, v⟩ := p
    by_cases h0 : k₀ = k
    · have he : eraseKey ((k₀, v) :: rest) k = rest := by simp [eraseKey, h0]
      rw [he]
      exact List.sublist_cons_self (k₀, v) rest
    · have he : eraseKey ((k₀, v) :: rest) k = (k₀, v) :: eraseKey rest k := by
        simp [eraseKey, h0]
      rw [he]
      exact ih.cons₂ (k₀, v)

/-- Helper: erasing a key preserves the no-duplicate-keys invariant. -/
theorem eraseKey_keysNodup {α β : Type} [DecidableEq α] (t : List (α × β)) (k : α)
    (h : keysNodup t) : keysNodup (eraseKey t k) :=
  ((eraseKey_sublist t k).map Prod.fst).nodup h

/-- Helper: after erasing a key in a duplicate-free table, the key is gone. -/
theorem eraseKey_not_mem {α β : Type} [DecidableEq α] (t : List (α × β)) (k : α)
    (h : keysNodup t) : k ∉ (eraseKey t k).map Prod.fst := by
  induction t with
  | nil => simp [eraseKey]
  | cons p rest ih =>
    obtain ⟨k₀, v⟩ := p
    simp only [keysNodup, List.map_cons, List.nodup_cons] at h
    by_cases h0 : k₀ = k
    · subst h0
      have he : eraseKey ((k₀, v) :: rest) k₀ = rest := by simp [eraseKey]
      rw [he]
      exact h.1
    · simp only [eraseKey, if_neg h0, List.map_cons, List.mem_cons]
      rintro (rfl | hmem)
      · exact h0 rfl
      · exact ih h.2 hmem


/-- Helper: looking up the key just inserted at the head. -/
theorem findValue_head {α β : Type} [DecidableEq α] (k : α) (v : β) (t : List (α × β)) :
    findValue ((k, v) :: t) k = some v := by
  simp [findValue]

/-- Helper: `loadBackground` on a cache hit. -/
theorem loadBackground_found (st : ThemeState) (cfg : Nat) (img : BgImage)
    (h : findValue st.backgroundImageTable cfg = some img) :
    Theme.loadBackground st cfg = (st, img, false) := by
  unfold Theme.loadBackground
  rw [h]

/-- Helper: `loadBackground` on a cache miss builds and emplaces. -/
theorem loadBackground_missing (st : ThemeState) (cfg : Nat)
    (h : findValue st.backgroundImageTable cfg = none) :
    Theme.loadBackground st cfg =
      ({ st with backgroundImageTable := (cfg, ⟨st.name, cfg⟩) :: st.backgroundImageTable },
        ⟨st.name, cfg⟩, true) := by
  unfold Theme.loadBackground
  rw [h]

/-- Helper: `loadAction` on a cache hit. -/
theorem loadAction_found (st : ThemeState) (cfg : Nat) (img : ActImage)
    (h : findValue st.actionImageTable cfg = some img) :
    Theme.loadAction st cfg = (st, img, false) := by
  unfold Theme.loadAction
  rw [h]

/-- Helper: `loadAction` on a cache miss builds and emplaces. -/
theorem loadAction_missing (st : ThemeState) (cfg : Nat)
    (h : findValue st.actionImageTable cfg = none) :
    Theme.loadAction st cfg =
      ({ st with actionImageTable := (cfg, ⟨st.name, cfg⟩) :: st.actionImageTable },
        ⟨st.name, cfg⟩, true) := by
  unfold Theme.loadAction
  rw [h]

/-- Helper: tray load, cache hit with matching size. -/
theorem loadImage_hit_same (st : ThemeState) (icon label : String) (size : Nat)
    (img : TrayImage) (h : findValue st.trayImageTable (trayKey icon label) = some img)
    (hs : img.size = size) :
    Theme.loadImage st icon label size = (st, img, false) := by
  unfold Theme.loadImage
  simp only []
  rw [h]
  simp [hs]

/-- Helper: tray load, cache hit with a different size erases and rebuilds. -/
theorem loadImage_hit_diff (st : ThemeState) (icon label : String) (size : Nat)
    (img : TrayImage) (h : findValue st.trayImageTable (trayKey icon label) = some img)
    (hs : img.size ≠ size) :
    Theme.loadImage st icon label size =
      ({ st with trayImageTable :=
          (trayKey icon label, ⟨st.iconThemeName, icon, label, size⟩) ::
            eraseKey st.trayImageTable (trayKey icon label) },
        ⟨st.iconThemeName, icon, label, size⟩, true) := by
  unfold Theme.loadImage
  simp only []
  rw [h]
  simp [hs]

/-- Helper: tray load, cache miss builds and emplaces. -/
theorem loadImage_miss (st : ThemeState) (icon label : String) (size : Nat)
    (h : findValue st.trayImageTable (trayKey icon label) = none) :
    Theme.loadImage st icon label size =
      ({ st with trayImageTable :=
          (trayKey icon label, ⟨st.iconThemeName, icon, label, size⟩) :: st.trayImageTable },
        ⟨st.iconThemeName, icon, label, size⟩, true) := by
  unfold Theme.loadImage
  simp only []
  rw [h]

/-- Helper: after any tray load the cache maps the key to the returned
image, and the returned image has the requested size. -/
theorem loadImage_post (st : ThemeState) (icon label : String) (size : Nat) :
    findValue (Theme.loadImage st icon label size).1.trayImageTable (trayKey icon label) =
      some (Theme.loadImage st icon label size).2.1 ∧
    (Theme.loadImage st icon label size).2.1.size = size := by
  cases h : findValue st.trayImageTable (trayKey icon label) with
  | none =>
    rw [loadImage_miss st icon label size h]
    exact ⟨findValue_head _ _ _, rfl⟩
  | some img =>
    by_cases hs : img.size = size
    · rw [loadImage_hit_same st icon label size img h hs]
      exact ⟨h, hs⟩
    · rw [loadImage_hit_diff st icon label size img h hs]
      exact ⟨findValue_head _ _ _, rfl⟩

/-- C9: each cache holds at most one entry per key (no-duplicate-keys is
preserved by every load), a repeated load with the same key (and, for tray
images, the same requested size) returns the cached image without invoking
the build again, and a tray load at a different size replaces the single
entry for that key, leaving all other keys untouched. -/
theorem C9_cache_contract (st : ThemeState) (cfg acfg : Nat) (icon label : String)
    (size size' : Nat)
    (hbg : keysNodup st.backgroundImageTable)
    (hact : keysNodup st.actionImageTable)
    (htray : keysNodup st.trayImageTable)
    (hsz : size' ≠ size) :
    keysNodup (Theme.loadBackground st cfg).1.backgroundImageTable ∧
    keysNodup (Theme.loadAction st acfg).1.actionImageTable ∧
    keysNodup (Theme.loadImage st icon label size).1.trayImageTable ∧
    Theme.loadBackground (Theme.loadBackground st cfg).1 cfg =
      ((Theme.loadBackground st cfg).1, (Theme.loadBackground st cfg).2.1, false) ∧
    Theme.loadAction (Theme.loadAction st acfg).1 acfg =
      ((Theme.loadAction st acfg).1, (Theme.loadAction st acfg).2.1, false) ∧
    Theme.loadImage (Theme.loadImage st icon label size).1 icon label size =
      ((Theme.loadImage st icon label size).1,
        (Theme.loadImage st icon label size).2.1, false) ∧
    (Theme.loadImage (Theme.loadImage st icon label size).1 icon label size').2.2 = true ∧
    (Theme.loadImage (Theme.loadImage st icon label size).1 icon label size').2.1.size
        = size' ∧
    findValue
        (Theme.loadImage (Theme.loadImage st icon label size).1 icon label
          size').1.trayImageTable (trayKey icon label)
      = some (Theme.loadImage (Theme.loadImage st icon label size).1 icon label size').2.1 ∧
    (∀ k, k ≠ trayKey icon label →
      findValue
          (Theme.loadImage (Theme.loadImage st icon label size).1 icon label
            size').1.trayImageTable k
        = findValue (Theme.loadImage st icon label size).1.trayImageTable k) := by
  obtain ⟨hpost1, hpost2⟩ := loadImage_post st icon label size
  have hsz' : (Theme.loadImage st icon label size).2.1.size ≠ size' := by
    rw [hpost2]
    exact fun hh => hsz hh.symm
  have hdiff := loadImage_hit_diff (Theme.loadImage st icon label size).1 icon label size'
    (Theme.loadImage st icon label size).2.1 hpost1 hsz'
  refine ⟨?_, ?_, ?_, ?_, ?_, ?_, ?_, ?_, ?_, ?_⟩
  · cases h : findValue st.backgroundImageTable cfg with
    | some img =>
      rw [loadBackground_found st cfg img h]
      exact hbg
    | none =>
      rw [loadBackground_missing st cfg h]
      simp only [keysNodup, List.map_cons, List.nodup_cons]
      exact ⟨(findValue_eq_none_iff _ _).mp h, hbg⟩
  · cases h : findValue st.actionImageTable acfg with
    | some img =>
      rw [loadAction_found st acfg img h]
      exact hact
    | none =>
      rw [loadAction_missing st acfg h]
      simp only [keysNodup, List.map_cons, List.nodup_cons]
      exact ⟨(findValue_eq_none_iff _ _).mp h, hact⟩
  · cases h : findValue st.trayImageTable (trayKey icon label) with
    | some img =>
      by_cases hs : img.size = size
      · rw [loadImage_hit_same st icon label size img h hs]
        exact htray
      · rw [loadImage_hit_diff st icon label size img h hs]
        simp only [keysNodup, List.map_cons, List.nodup_cons]
        exact ⟨eraseKey_not_mem _ _ htray, eraseKey_keysNodup _ _ htray⟩
    | none =>
      rw [loadImage_miss st icon label size h]
      simp only [keysNodup, List.map_cons, List.nodup_cons]
      exact ⟨(findValue_eq_none_iff _ _).mp h, htray⟩
  · cases h : findValue st.backgroundImageTable cfg with
    | some img =>
      rw [loadBackground_found st cfg img h, loadBackground_found st cfg img h]
    | none =>
      rw [loadBackground_missing st cfg h]
      exact loadBackground_found _ cfg _ (findValue_head _ _ _)
  · cases h : findValue st.actionImageTable acfg with
    | some img =>
      rw [loadAction_found st acfg img h, loadAction_found st acfg img h]
    | none =>
      rw [loadAction_missing st acfg h]
      exact loadAction_found _ acfg _ (findValue_head _ _ _)
  · exact loadImage_hit_same _ icon label size _ hpost1 hpost2
  · rw [hdiff]
  · rw [hdiff]
  · rw [hdiff]
    exact findValue_head _ _ _
  · intro k hk
    rw [hdiff]
    have hne : ¬ trayKey icon label = k := fun hh => hk hh.symm
    simp only [findValue, if_neg hne]
    exact findValue_eraseKey_ne _ _ _ hk

/-- C9 witness: the contract applied to a concrete empty theme state. -/
theorem C9_cache_contract_witness :
    (Theme.loadImage (Theme.loadImage ⟨"t", "it", [], [], []⟩ "a" "b" 16).1 "a" "b" 32).2.2
        = true ∧
    (Theme.loadImage (Theme.loadImage ⟨"t", "it", [], [], []⟩ "a" "b" 16).1 "a" "b"
        32).2.1.size = 32 ∧
    keysNodup (Theme.loadBackground ⟨"t", "it", [], [], []⟩ 0).1.backgroundImageTable := by
  have h := C9_cache_contract ⟨"t", "it", [], [], []⟩ 0 0 "a" "b" 16 32
    (by simp [keysNodup]) (by simp [keysNodup]) (by simp [keysNodup]) (by decide)
  exact ⟨h.2.2.2.2.2.2.1, h.2.2.2.2.2.2.2.1, h.1⟩

/-- C10: `Theme::setIconTheme` with a name different from the current icon
theme clears only the tray image cache and returns true, leaving the
background and action caches (and the theme name) unchanged; with the
currently active name it modifies nothing and returns false. -/
theorem C10_setIconTheme_effects (st : ThemeState) (name : String) :
    (Theme.setIconTheme st name).1.backgroundImageTable = st.backgroundImageTable ∧
    (Theme.setIconTheme st name).1.actionImageTable = st.actionImageTable ∧
    (Theme.setIconTheme st name).1.name = st.name ∧
    (name ≠ st.iconThemeName →
      Theme.setIconTheme st name =
        ({ st with iconThemeName := name, trayImageTable := [] }, true)) ∧
    (name = st.iconThemeName → Theme.setIconTheme st name = (st, false)) := by
  by_cases h : st.iconThemeName = name
  · have he : Theme.setIconTheme st name = (st, false) := by
      unfold Theme.setIconTheme
      rw [if_neg (not_not_intro h)]
    rw [he]
    exact ⟨rfl, rfl, rfl, fun hne => absurd h.symm hne, fun _ => rfl⟩
  · have he : Theme.setIconTheme st name =
        ({ st with iconThemeName := name, trayImageTable := [] }, true) := by
      unfold Theme.setIconTheme
      rw [if_pos h]
    rw [he]
    exact ⟨rfl, rfl, rfl, fun _ => rfl, fun hh => absurd hh.symm h⟩

/-- C10 witness: both branches at concrete states. -/
theorem C10_setIconTheme_effects_witness :
    Theme.setIconTheme ⟨"t", "it", [], [], []⟩ "new" =
      ({ name := "t", iconThemeName := "new", trayImageTable := [],
         backgroundImageTable := [], actionImageTable := [] }, true) ∧
    Theme.setIconTheme ⟨"t", "it", [], [], []⟩ "it" = (⟨"t", "it", [], [], []⟩, false) := by
  constructor
  · exact (C10_setIconTheme_effects ⟨"t", "it", [], [], []⟩ "new").2.2.2.1 (by decide)
  · exact (C10_setIconTheme_effects ⟨"t", "it", [], [], []⟩ "it").2.2.2.2 rfl

/-- C4 counterexample: an action-image load with an empty image reference
(and likewise with a failed decode) yields a null surface, not a usable
non-null one — the action path has no fallback. -/
theorem C4_action_load_null :
    ThemeImage.ofAction true none = none ∧ ThemeImage.ofAction false none = none := by
  constructor <;> rfl

/-- C4 (amended): tray and background image loads always yield a usable
surface — a decode failure or empty reference falls through to the text
icon (tray) or to the procedurally drawn bordered solid background with
the dimensions computed in the source (background); action image loads
have no fallback and may yield a null surface (without surfacing an
error). -/
theorem C4_fallbacks (twoKeyboards preferTextConfig : Bool) (icon label : String)
    (size : Nat) (decode : Option Nat) (imageRefEmpty : Bool)
    (mL mR mT mB bw : Nat) :
    (ThemeImage.ofTray twoKeyboards preferTextConfig icon label size decode).isSome = true ∧
    (decode = none →
      ThemeImage.ofTray twoKeyboards preferTextConfig icon label size decode =
        some (Surface.textIcon label size)) ∧
    (ThemeImage.ofBackground imageRefEmpty decode mL mR mT mB bw).isSome = true ∧
    (imageRefEmpty = true ∨ decode = none →
      ThemeImage.ofBackground imageRefEmpty decode mL mR mT mB bw =
        some (Surface.solidBackground (mL + mR + max (mL + mR) 20)
          (mT + mB + max (mT + mB) 20) (min bw (min mL (min mR (min mT mB)))))) := by
  refine ⟨?_, ?_, ?_, ?_⟩
  · cases hd : decode with
    | none =>
      simp only [ThemeImage.ofTray]
      split <;> rfl
    | some t =>
      simp only [ThemeImage.ofTray]
      split <;> rfl
  · intro hd
    subst hd
    simp only [ThemeImage.ofTray]
    split
    · rename_i s heq
      split at heq <;> simp at heq
    · rfl
  · cases hd : decode with
    | none => cases imageRefEmpty <;> rfl
    | some t => cases imageRefEmpty <;> rfl
  · intro hd
    rcases hd with hd | hd
    · subst hd
      rfl
    · subst hd
      cases imageRefEmpty <;> rfl

/-- C4 witness: the fallback equations at concrete inputs. -/
theorem C4_fallbacks_witness :
    (ThemeImage.ofTray false false "icon" "L" 22 none).isSome = true ∧
    ThemeImage.ofTray false false "icon" "L" 22 none = some (Surface.textIcon "L" 22) ∧
    (ThemeImage.ofBackground true none 1 2 3 4 5).isSome = true ∧
    ThemeImage.ofBackground true none 1 2 3 4 5 =
      some (Surface.solidBackground (1 + 2 + max (1 + 2) 20) (3 + 4 + max (3 + 4) 20)
        (min 5 (min 1 (min 2 (min 3 4))))) := by
  have h := C4_fallbacks false false "icon" "L" 22 none true 1 2 3 4 5
  exact ⟨h.1, h.2.1 rfl, h.2.2.1, h.2.2.2 (Or.inl rfl)⟩

/-- C3: the computed pixel size follows the truncation formula, but the
floor-at-1 the claim states does not happen: only negative values (which
cannot occur, the operand is nonnegative) are replaced by 1, so the pixel
size is 0 for small sizes — e.g. size 1 with text width 1. -/
theorem C3_pixelSize_not_floored :
    drawTextIconPixelSize 1 1 = 0 ∧ drawTextIconPixelSize 0 2 = 0 ∧
    drawTextIconPixelSize 4 3 = 2 ∧ drawTextIconPixelSize 16 2 = 12 ∧
    drawTextIconPixelSize 20 3 = 10 := by
  refine ⟨?_, ?_, ?_, ?_, ?_⟩ <;> norm_num [drawTextIconPixelSize]

/-- Helper: the greedy loop of `extractTextForLabel` returns a prefix of
its input whose total width (plus the carried-in width) stays at most 3,
reports the accumulated width, and is maximal: adding the next code point
would exceed 3. -/
theorem extractGo_spec (zw wide : Nat → Bool) (l : List Nat) (cur : Nat) (h : cur ≤ 3) :
    (extractGo zw wide l cur).1 <+: l ∧
    (extractGo zw wide l cur).2 = cur + widthSum zw wide (extractGo zw wide l cur).1 ∧
    (extractGo zw wide l cur).2 ≤ 3 ∧
    ((extractGo zw wide l cur).1 ≠ l →
      3 < cur + widthSum zw wide (l.take ((extractGo zw wide l cur).1.length + 1))) := by
  induction l generalizing cur with
  | nil =>
    refine ⟨by simp [extractGo], by simp [extractGo, widthSum], ?_, ?_⟩
    · simp only [extractGo]
      exact h
    · intro hne
      simp [extractGo] at hne
  | cons c rest ih =>
    by_cases hw : cur + charWidth zw wide c ≤ 3
    · have hgo : extractGo zw wide (c :: rest) cur =
          (c :: (extractGo zw wide rest (cur + charWidth zw wide c)).1,
            (extractGo zw wide rest (cur + charWidth zw wide c)).2) := by
        simp [extractGo, hw]
      obtain ⟨ih1, ih2, ih3, ih4⟩ := ih (cur + charWidth zw wide c) hw
      rw [hgo]
      refine ⟨?_, ?_, ih3, ?_⟩
      · obtain ⟨t, ht⟩ := ih1
        exact ⟨t, by rw [List.cons_append, ht]⟩
      · simp only [widthSum, List.map_cons, List.sum_cons]
        simp only [widthSum] at ih2
        omega
      · intro hne
        have hne' : (extractGo zw wide rest (cur + charWidth zw wide c)).1 ≠ rest := by
          intro hh
          exact hne (by rw [hh])
        have h4 := ih4 hne'
        simp only [List.length_cons, List.take_succ_cons, widthSum, List.map_cons,
          List.sum_cons]
        simp only [widthSum] at h4
        omega
    · have hgo : extractGo zw wide (c :: rest) cur = ([], cur) := by
        simp [extractGo, hw]
      rw [hgo]
      refine ⟨⟨c :: rest, rfl⟩, by simp [widthSum], h, ?_⟩
      intro _
      simp only [List.length_nil, Nat.zero_add, List.take_succ_cons, List.take_zero,
        widthSum, List.map_cons, List.map_nil, List.sum_cons, List.sum_nil]
      omega

/-- C8: `extractTextForLabel` takes the first token of the label (split on
whitespace and on `-`, `_`, `/`, `|`) and returns its maximal prefix whose
cumulative display width is at most 3, together with that width; in
particular "us" gives ("us", 2), "en-US" gives ("en", 2), and a label that
is a single wide code point gives that code point with width 2.  The glib
width predicates are abstract; the hypotheses fix the classification of
the code points appearing in the examples. -/
theorem C8_extractTextForLabel_spec (zw wide : Nat → Bool) (label : List Nat) (cWide : Nat)
    (hu : zw 117 = false ∧ wide 117 = false)
    (hs : zw 115 = false ∧ wide 115 = false)
    (he : zw 101 = false ∧ wide 101 = false)
    (hn : zw 110 = false ∧ wide 110 = false)
    (hw : zw cWide = false ∧ wide cWide = true)
    (hwsep : isLabelSep cWide = false) :
    (extractTextForLabel zw wide label).1 <+: firstToken label ∧
    (extractTextForLabel zw wide label).2 =
      widthSum zw wide (extractTextForLabel zw wide label).1 ∧
    (extractTextForLabel zw wide label).2 ≤ 3 ∧
    ((extractTextForLabel zw wide label).1 ≠ firstToken label →
      3 < widthSum zw wide
        ((firstToken label).take ((extractTextForLabel zw wide label).1.length + 1))) ∧
    extractTextForLabel zw wide [117, 115] = ([117, 115], 2) ∧
    extractTextForLabel zw wide [101, 110, 45, 85, 83] = ([101, 110], 2) ∧
    extractTextForLabel zw wide [cWide] = ([cWide], 2) := by
  have hgen : ∀ lab : List Nat,
      (extractTextForLabel zw wide lab).1 <+: firstToken lab ∧
      (extractTextForLabel zw wide lab).2 =
        widthSum zw wide (extractTextForLabel zw wide lab).1 ∧
      (extractTextForLabel zw wide lab).2 ≤ 3 ∧
      ((extractTextForLabel zw wide lab).1 ≠ firstToken lab →
        3 < widthSum zw wide
          ((firstToken lab).take ((extractTextForLabel zw wide lab).1.length + 1))) := by
    intro lab
    unfold extractTextForLabel
    by_cases hemp : firstToken lab = []
    · simp only [hemp, if_pos rfl]
      refine ⟨List.nil_prefix, by simp [widthSum], by norm_num, ?_⟩
      intro hne
      simp at hne
    · simp only [if_neg hemp]
      obtain ⟨g1, g2, g3, g4⟩ := extractGo_spec zw wide (firstToken lab) 0 (by norm_num)
      refine ⟨g1, by simpa using g2, g3, ?_⟩
      intro hne
      have := g4 hne
      omega
  refine ⟨(hgen label).1, (hgen label).2.1, (hgen label).2.2.1, (hgen label).2.2.2, ?_, ?_, ?_⟩
  · have hft : firstToken [117, 115] = [117, 115] := by decide
    unfold extractTextForLabel
    rw [hft, if_neg (by decide : ¬([117, 115] : List Nat) = [])]
    simp [extractGo, charWidth, hu.1, hu.2, hs.1, hs.2]
  · have hft : firstToken [101, 110, 45, 85, 83] = [101, 110] := by decide
    unfold extractTextForLabel
    rw [hft, if_neg (by decide : ¬([101, 110] : List Nat) = [])]
    simp [extractGo, charWidth, he.1, he.2, hn.1, hn.2]
  · have hft : firstToken [cWide] = [cWide] := by
      simp [firstToken, hwsep]
    unfold extractTextForLabel
    rw [hft, if_neg (by simp : ¬([cWide] : List Nat) = [])]
    simp [extractGo, charWidth, hw.1, hw.2]

/-- C8 witness: the three examples with concrete width predicates (nothing
zero-width; code points from 0x1100 up are wide, as for CJK). -/
theorem C8_extractTextForLabel_witness :
    extractTextForLabel (fun _ => false) (fun c => decide (4352 ≤ c)) [117, 115]
        = ([117, 115], 2) ∧
    extractTextForLabel (fun _ => false) (fun c => decide (4352 ≤ c)) [101, 110, 45, 85, 83]
        = ([101, 110], 2) ∧
    extractTextForLabel (fun _ => false) (fun c => decide (4352 ≤ c)) [20013]
        = ([20013], 2) := by
  have h := C8_extractTextForLabel_spec (fun _ => false) (fun c => decide (4352 ≤ c))
    [] 20013 (by decide) (by decide) (by decide) (by decide) (by decide) (by decide)
  exact ⟨h.2.2.2.2.1, h.2.2.2.2.2.1, h.2.2.2.2.2.2⟩

/-- Helper: a cast integer is below a pixel center exactly when it is at
most the pixel index. -/
theorem intCast_le_center (a X : ℤ) : ((a : ℚ) ≤ pixelCenter X) ↔ a ≤ X := by
  unfold pixelCenter
  constructor
  · intro h
    have h2 : ((2 * a : ℤ) : ℚ) ≤ ((2 * X + 1 : ℤ) : ℚ) := by push_cast; linarith
    have h3 : (2 * a : ℤ) ≤ 2 * X + 1 := by exact_mod_cast h2
    omega
  · intro h
    have h2 : ((a : ℚ)) ≤ (X : ℚ) := by exact_mod_cast h
    linarith

/-- Helper: a pixel center is below a cast integer exactly when the pixel
index is. -/
theorem center_lt_intCast (X b : ℤ) : (pixelCenter X < (b : ℚ)) ↔ X < b := by
  unfold pixelCenter
  constructor
  · intro h
    have h2 : ((2 * X + 1 : ℤ) : ℚ) < ((2 * b : ℤ) : ℚ) := by push_cast; linarith
    have h3 : (2 * X + 1 : ℤ) < 2 * b := by exact_mod_cast h2
    omega
  · intro h
    have h2 : ((X + 1 : ℤ) : ℚ) ≤ (b : ℚ) := by exact_mod_cast (by omega : X + 1 ≤ b)
    push_cast at h2
    linarith

/-- Helper: the source pixel under a pixel center for an unscaled paint
with integer translation and source offset. -/
theorem srcCoord_one (X t o : ℤ) : srcCoord (pixelCenter X) (t : ℚ) 1 (o : ℚ) = X - t - o := by
  unfold srcCoord pixelCenter
  rw [div_one]
  have he : ((X : ℚ) + 1 / 2 - t - o) = ((X - t - o : ℤ) : ℚ) + 1 / 2 := by push_cast; ring
  rw [he]
  rw [Int.floor_eq_iff]
  constructor
  · linarith
  · push_cast
    linarith

/-- Helper: 1D coverage of an unscaled clip side. -/
theorem covers_one (X t c : ℤ) :
    ((t : ℚ) ≤ pixelCenter X ∧ pixelCenter X < (t : ℚ) + 1 * (c : ℚ)) ↔ (t ≤ X ∧ X < t + c) := by
  rw [one_mul]
  have h2 : (t : ℚ) + (c : ℚ) = ((t + c : ℤ) : ℚ) := by push_cast; ring
  rw [h2, intCast_le_center, center_lt_intCast]

/-- Helper: 1D coverage of a clip side scaled by a/b spans exactly a
device pixels (the product a/b * b is exact over the rationals). -/
theorem covers_scaled (X t a b : ℤ) (hb : 0 < b) :
    ((t : ℚ) ≤ pixelCenter X ∧ pixelCenter X < (t : ℚ) + (a : ℚ) / (b : ℚ) * (b : ℚ)) ↔
      (t ≤ X ∧ X < t + a) := by
  have hbne : ((b : ℚ)) ≠ 0 := by
    have h0 : (0 : ℚ) < (b : ℚ) := by exact_mod_cast hb
    exact ne_of_gt h0
  rw [div_mul_cancel₀ _ hbne]
  have h2 : (t : ℚ) + (a : ℚ) = ((t + a : ℤ) : ℚ) := by push_cast; ring
  rw [h2, intCast_le_center, center_lt_intCast]

/-- Helper: coverage of an unscaled paint step is the integer rectangle. -/
theorem inClip_one_one (X Y tx ty cw ch : ℤ) :
    inClip (pixelCenter X) (pixelCenter Y) (tx : ℚ) (ty : ℚ) 1 1 (cw : ℚ) (ch : ℚ) ↔
      (tx ≤ X ∧ X < tx + cw ∧ ty ≤ Y ∧ Y < ty + ch) := by
  unfold inClip
  have hx := covers_one X tx cw
  have hy := covers_one Y ty ch
  tauto

/-- Helper: coverage of a step scaled only in x. -/
theorem inClip_scaleX (X Y tx ty a b ch : ℤ) (hb : 0 < b) :
    inClip (pixelCenter X) (pixelCenter Y) (tx : ℚ) (ty : ℚ)
        ((a : ℚ) / (b : ℚ)) 1 (b : ℚ) (ch : ℚ) ↔
      (tx ≤ X ∧ X < tx + a ∧ ty ≤ Y ∧ Y < ty + ch) := by
  unfold inClip
  have hx := covers_scaled X tx a b hb
  have hy := covers_one Y ty ch
  tauto

/-- Helper: coverage of a step scaled only in y. -/
theorem inClip_scaleY (X Y tx ty cw a b : ℤ) (hb : 0 < b) :
    inClip (pixelCenter X) (pixelCenter Y) (tx : ℚ) (ty : ℚ)
        1 ((a : ℚ) / (b : ℚ)) (cw : ℚ) (b : ℚ) ↔
      (tx ≤ X ∧ X < tx + cw ∧ ty ≤ Y ∧ Y < ty + a) := by
  unfold inClip
  have hx := covers_one X tx cw
  have hy := covers_scaled Y ty a b hb
  tauto

/-- Helper: coverage of the center step, scaled on both axes. -/
theorem inClip_scaleXY (X Y tx ty ax bx ay b2 : ℤ) (hbx : 0 < bx) (hby : 0 < b2) :
    inClip (pixelCenter X) (pixelCenter Y) (tx : ℚ) (ty : ℚ)
        ((ax : ℚ) / (bx : ℚ)) ((ay : ℚ) / (b2 : ℚ)) (bx : ℚ) (b2 : ℚ) ↔
      (tx ≤ X ∧ X < tx + ax ∧ ty ≤ Y ∧ Y < ty + ay) := by
  unfold inClip
  have hx := covers_scaled X tx ax bx hbx
  have hy := covers_scaled Y ty ay b2 hby
  tauto

/-- Helper: the clamped resize width is positive. -/
theorem resizeWidth_pos (cfg : BackgroundImageConfig) (img : ThemeImageSurfaces) :
    0 < resizeWidth cfg img := by
  unfold resizeWidth
  split <;> omega

/-- Helper: the clamped resize height is positive. -/
theorem resizeHeight_pos (cfg : BackgroundImageConfig) (img : ThemeImageSurfaces) :
    0 < resizeHeight cfg img := by
  unfold resizeHeight
  split <;> omega

/-- Helper: a non-negative requested width is used as is. -/
theorem effWidth_nonneg_eq (cfg : BackgroundImageConfig) (img : ThemeImageSurfaces)
    (w : Int) (hw : 0 ≤ w) : effWidth cfg img w = w := by
  unfold effWidth
  rw [if_neg (not_lt.mpr hw)]

/-- Helper: a non-negative requested height is used as is. -/
theorem effHeight_nonneg_eq (cfg : BackgroundImageConfig) (img : ThemeImageSurfaces)
    (h : Int) (hh : 0 ≤ h) : effHeight cfg img h = h := by
  unfold effHeight
  rw [if_neg (not_lt.mpr hh)]

/-- Helper: with no overlay surface the composite is the nine-patch. -/
theorem paintShowsAt_overlay_none (cfg : BackgroundImageConfig) (img : ThemeImageSurfaces)
    (w0 h0 X Y : Int) (h : img.overlay = none) :
    paintShowsAt cfg img w0 h0 X Y = bgShowsAt cfg img w0 h0 X Y := by
  unfold paintShowsAt
  rw [h]

/-- Helper: with an overlay surface the composite is the nine-patch with
the overlay logic applied on top. -/
theorem paintShowsAt_overlay_some (cfg : BackgroundImageConfig) (img : ThemeImageSurfaces)
    (ov : Img) (w0 h0 X Y : Int) (h : img.overlay = some ov) :
    paintShowsAt cfg img w0 h0 X Y =
      overlayApply cfg ov (effWidth cfg img w0) (effHeight cfg img h0) X Y
        (bgShowsAt cfg img w0 h0 X Y) := by
  unfold paintShowsAt
  rw [h]

/-- Helper: the nine-patch does not read the overlay surface. -/
theorem bgShowsAt_overlay_irrel (cfg : BackgroundImageConfig) (img : ThemeImageSurfaces)
    (w0 h0 X Y : Int) :
    bgShowsAt cfg { img with overlay := none } w0 h0 X Y = bgShowsAt cfg img w0 h0 X Y := rfl

/-- Helper: every skip branch of the overlay logic is a no-op; in
particular the oversize rule. -/
theorem overlayApply_hidden (cfg : BackgroundImageConfig) (ov : Img) (width height X Y : Int)
    (r : Option Shown) (hhide : cfg.hideOverlayIfOversize = true)
    (hcont : ¬ (overlayClipRect cfg width height).contains
      (overlayPlaceRect cfg ov width height)) :
    overlayApply cfg ov width height X Y r = r := by
  unfold overlayApply
  by_cases h1 : (overlayClipRect cfg width height).width ≤ 0 ∨
      (overlayClipRect cfg width height).height ≤ 0
  · rw [if_pos h1]
  · rw [if_neg h1]
    by_cases h2 : (overlayFinalRect cfg ov width height).isEmpty
    · rw [if_pos h2]
    · rw [if_neg h2, if_pos ⟨hhide, hcont⟩]

/-- C5: when hideOverlayIfOversize is set and the unclipped overlay
placement rectangle is not contained in the clip rectangle, Theme::paint
draws no overlay at all: every pixel equals the same composite with no
overlay configured. -/
theorem C5_oversize_hides_overlay (cfg : BackgroundImageConfig) (img : ThemeImageSurfaces)
    (ov : Img) (width height : Int) (hov : img.overlay = some ov)
    (hw : 0 ≤ width) (hh : 0 ≤ height)
    (hhide : cfg.hideOverlayIfOversize = true)
    (hcont : ¬ (overlayClipRect cfg width height).contains
      (overlayPlaceRect cfg ov width height))
    (X Y : Int) :
    paintShowsAt cfg img width height X Y =
      paintShowsAt cfg { img with overlay := none } width height X Y := by
  rw [paintShowsAt_overlay_some cfg img ov width height X Y hov,
    paintShowsAt_overlay_none cfg { img with overlay := none } width height X Y rfl,
    bgShowsAt_overlay_irrel,
    effWidth_nonneg_eq cfg img width hw, effHeight_nonneg_eq cfg img height hh,
    overlayApply_hidden cfg ov width height X Y _ hhide hcont]

/-- C5 witness: a 20x20 overlay on a 10x10 target with zero clip margins
is hidden; pixel (3,3) matches the overlay-free composite. -/
theorem C5_oversize_hides_overlay_witness :
    paintShowsAt ⟨⟨0, 0, 0, 0⟩, ⟨0, 0, 0, 0⟩, .topLeft, 0, 0, true⟩
        ⟨⟨4, 4, fun _ _ => 7⟩, some ⟨20, 20, fun _ _ => 9⟩⟩ 10 10 3 3 =
      paintShowsAt ⟨⟨0, 0, 0, 0⟩, ⟨0, 0, 0, 0⟩, .topLeft, 0, 0, true⟩
        { (⟨⟨4, 4, fun _ _ => 7⟩, some ⟨20, 20, fun _ _ => 9⟩⟩ : ThemeImageSurfaces) with
          overlay := none } 10 10 3 3 :=
  C5_oversize_hides_overlay ⟨⟨0, 0, 0, 0⟩, ⟨0, 0, 0, 0⟩, .topLeft, 0, 0, true⟩
    ⟨⟨4, 4, fun _ _ => 7⟩, some ⟨20, 20, fun _ _ => 9⟩⟩ ⟨20, 20, fun _ _ => 9⟩ 10 10 rfl
    (by norm_num) (by norm_num) rfl
    (by
      intro hc
      have h3 := hc.2.2.1
      norm_num [overlayClipRect, overlayPlaceRect, overlayXPos, Rect.right,
        Rect.contains] at h3)
    3 3

/-- C6 (amended): when the requested target size makes the target stretch
region equal the source stretch region (scale factors exactly 1 — with the
negative-size sentinel this happens only for zero margins), the
nearest-filtered center paint shows source pixel (X,Y) at device pixel
(X,Y) across the whole center region. -/
theorem C6_center_scale_one (cfg : BackgroundImageConfig) (img : ThemeImageSurfaces)
    (w0 h0 X Y : Int) (hov : img.overlay = none)
    (hw : w0 = marginL cfg + marginR cfg + resizeWidth cfg img)
    (hh : h0 = marginT cfg + marginB cfg + resizeHeight cfg img)
    (hX1 : marginL cfg ≤ X) (hX2 : X < marginL cfg + resizeWidth cfg img)
    (hY1 : marginT cfg ≤ Y) (hY2 : Y < marginT cfg + resizeHeight cfg img) :
    paintShowsAt cfg img w0 h0 X Y = some (.bg X Y) := by
  rw [paintShowsAt_overlay_none cfg img w0 h0 X Y hov]
  have hrw := resizeWidth_pos cfg img
  have hrh := resizeHeight_pos cfg img
  have hmL : 0 ≤ marginL cfg := Int.natCast_nonneg _
  have hmR : 0 ≤ marginR cfg := Int.natCast_nonneg _
  have hmT : 0 ≤ marginT cfg := Int.natCast_nonneg _
  have hmB : 0 ≤ marginB cfg := Int.natCast_nonneg _
  have hW : effWidth cfg img w0 = w0 := effWidth_nonneg_eq cfg img w0 (by omega)
  have hH : effHeight cfg img h0 = h0 := effHeight_nonneg_eq cfg img h0 (by omega)
  have htw : targetResizeW cfg img w0 = resizeWidth cfg img := by
    unfold targetResizeW
    rw [hW]
    omega
  have hth : targetResizeH cfg img h0 = resizeHeight cfg img := by
    unfold targetResizeH
    rw [hH]
    omega
  have hrwq : ((resizeWidth cfg img : ℚ)) ≠ 0 := by
    have h0 : (0 : ℚ) < (resizeWidth cfg img : ℚ) := by exact_mod_cast hrw
    exact ne_of_gt h0
  have hrhq : ((resizeHeight cfg img : ℚ)) ≠ 0 := by
    have h0 : (0 : ℚ) < (resizeHeight cfg img : ℚ) := by exact_mod_cast hrh
    exact ne_of_gt h0
  have hsx : scaleXq cfg img w0 = 1 := by
    unfold scaleXq
    rw [htw]
    exact div_self hrwq
  have hsy : scaleYq cfg img h0 = 1 := by
    unfold scaleYq
    rw [hth]
    exact div_self hrhq
  have hc5 : 0 < targetResizeH cfg img h0 ∧ 0 < targetResizeW cfg img w0 ∧
      inClip (pixelCenter X) (pixelCenter Y) (marginL cfg : ℚ) (marginT cfg : ℚ)
        (scaleXq cfg img w0) (scaleYq cfg img h0)
        (resizeWidth cfg img : ℚ) (resizeHeight cfg img : ℚ) := by
    refine ⟨by rw [hth]; exact hrh, by rw [htw]; exact hrw, ?_⟩
    rw [hsx, hsy, inClip_one_one]
    omega
  unfold bgShowsAt
  rw [if_pos hc5, hsx, hsy, srcCoord_one, srcCoord_one]
  simp only [Option.some.injEq, Shown.bg.injEq]
  omega

/-- C6 counterexample: margins 1 on a 4x4 source and the negative-size
sentinel.  The sentinel makes the target equal the source resize size
(2x2), the scale factors are then 0 (not 1), the center paint is skipped,
and device pixel (1,1) shows source pixel (3,3) — the bottom-right corner
paint — with value 33, not the center pixel (1,1) with value 11. -/
theorem C6_counterexample :
    paintShowsAt ⟨⟨1, 1, 1, 1⟩, ⟨0, 0, 0, 0⟩, .topLeft, 0, 0, false⟩
        ⟨⟨4, 4, fun x y => x + 10 * y⟩, none⟩ (-1) (-1) 1 1 = some (.bg 3 3) ∧
    paintPixel ⟨⟨1, 1, 1, 1⟩, ⟨0, 0, 0, 0⟩, .topLeft, 0, 0, false⟩
        ⟨⟨4, 4, fun x y => x + 10 * y⟩, none⟩ (-1) (-1) 1 1 = 33 ∧
    (⟨4, 4, fun x y => x + 10 * y⟩ : Img).px 1 1 = 11 := by
  refine ⟨?_, ?_, by norm_num⟩
  · norm_num [paintShowsAt, bgShowsAt, inClip, srcCoord, pixelCenter, marginL, marginR,
      marginT, marginB, resizeWidth, resizeHeight, effWidth, effHeight, targetResizeW,
      targetResizeH, scaleXq, scaleYq]
  · norm_num [paintPixel, paintShowsAt, bgShowsAt, shownValue, sampleImg, inClip, srcCoord,
      pixelCenter, marginL, marginR, marginT, marginB, resizeWidth, resizeHeight, effWidth,
      effHeight, targetResizeW, targetResizeH, scaleXq, scaleYq]
    omega

/-- C6 witness: a 4x4 source with margins 1 composited at 4x4 (so the
stretch regions match) shows source pixel (2,1) at device pixel (2,1). -/
theorem C6_center_scale_one_witness :
    paintShowsAt ⟨⟨1, 1, 1, 1⟩, ⟨0, 0, 0, 0⟩, .topLeft, 0, 0, false⟩
        ⟨⟨4, 4, fun x y => x + 10 * y⟩, none⟩ 4 4 2 1 = some (.bg 2 1) :=
  C6_center_scale_one ⟨⟨1, 1, 1, 1⟩, ⟨0, 0, 0, 0⟩, .topLeft, 0, 0, false⟩
    ⟨⟨4, 4, fun x y => x + 10 * y⟩, none⟩ 4 4 2 1 rfl
    (by norm_num [marginL, marginR, resizeWidth, marginT, marginB])
    (by norm_num [marginL, marginR, resizeWidth, resizeHeight, marginT, marginB])
    (by norm_num [marginL]) (by norm_num [marginL, marginR, resizeWidth, marginT, marginB])
    (by norm_num [marginT]) (by norm_num [marginL, marginR, resizeHeight, marginT, marginB])

/-- C7: each overlay placement axis resolves independently from the 9-way
gravity as near edge + offset, centered + offset, or far edge − offset
(per the grid third the gravity falls in); with gravity BottomRight, zero
offsets, and zero overlay clip margins the overlay placement rectangle is
(w−ow, h−oh, ow, oh) — its bottom-right corner coincides with the
target's — and every pixel of that rectangle shows the overlay. -/
theorem C7_overlay_gravity (cfg : BackgroundImageConfig) (img : ThemeImageSurfaces) (ov : Img)
    (w h X Y : Int) (hov : img.overlay = some ov)
    (hg : cfg.gravity = .bottomRight)
    (hoffx : cfg.overlayOffsetX = 0) (hoffy : cfg.overlayOffsetY = 0)
    (hclip : cfg.overlayClipMargin = ⟨0, 0, 0, 0⟩)
    (how1 : 0 < (ov.width : Int)) (how2 : (ov.width : Int) ≤ w)
    (hoh1 : 0 < (ov.height : Int)) (hoh2 : (ov.height : Int) ≤ h)
    (hX1 : w - (ov.width : Int) ≤ X) (hX2 : X < w)
    (hY1 : h - (ov.height : Int) ≤ Y) (hY2 : Y < h) :
    (∀ g offv tv ev, overlayXPos g offv tv ev = resolveAxis (gravityCol g) offv tv ev) ∧
    (∀ g offv tv ev, overlayYPos g offv tv ev = resolveAxis (gravityRow g) offv tv ev) ∧
    overlayPlaceRect cfg ov w h =
      ⟨w - (ov.width : Int), h - (ov.height : Int), (ov.width : Int), (ov.height : Int)⟩ ∧
    paintShowsAt cfg img w h X Y =
      some (.ov (X - (w - (ov.width : Int))) (Y - (h - (ov.height : Int)))) := by
  have hax : ∀ g offv tv ev, overlayXPos g offv tv ev = resolveAxis (gravityCol g) offv tv ev := by
    intro g offv tv ev
    cases g <;> rfl
  have hay : ∀ g offv tv ev, overlayYPos g offv tv ev = resolveAxis (gravityRow g) offv tv ev := by
    intro g offv tv ev
    cases g <;> rfl
  have hplace : overlayPlaceRect cfg ov w h =
      ⟨w - (ov.width : Int), h - (ov.height : Int), (ov.width : Int), (ov.height : Int)⟩ := by
    unfold overlayPlaceRect
    rw [hg, hoffx, hoffy]
    simp only [overlayXPos, overlayYPos, sub_zero]
  have hclipR : overlayClipRect cfg w h = ⟨0, 0, w, h⟩ := by
    unfold overlayClipRect
    rw [hclip]
    norm_num
  have hfinal : overlayFinalRect cfg ov w h =
      ⟨w - (ov.width : Int), h - (ov.height : Int), (ov.width : Int), (ov.height : Int)⟩ := by
    unfold overlayFinalRect
    rw [hplace, hclipR]
    unfold Rect.intersected
    rw [if_pos]
    · simp only [Rect.mk.injEq, Rect.right, Rect.bottom]
      refine ⟨by omega, by omega, by omega, by omega⟩
    · simp only [Rect.right, Rect.bottom]
      constructor <;> omega
  refine ⟨hax, hay, hplace, ?_⟩
  have hw0 : 0 ≤ w := by omega
  have hh0 : 0 ≤ h := by omega
  rw [paintShowsAt_overlay_some cfg img ov w h X Y hov,
    effWidth_nonneg_eq cfg img w hw0, effHeight_nonneg_eq cfg img h hh0]
  unfold overlayApply
  rw [hclipR, hfinal, hplace]
  rw [if_neg (by dsimp only; omega)]
  rw [if_neg (by
    dsimp only [Rect.isEmpty]
    omega)]
  rw [if_neg (by
    rintro ⟨-, hcc⟩
    refine hcc ?_
    dsimp only [Rect.contains, Rect.right, Rect.bottom]
    refine ⟨by omega, by omega, by omega, by omega⟩)]
  rw [if_pos (by
    dsimp only
    rw [inClip_one_one]
    omega)]
  dsimp only
  rw [srcCoord_one, srcCoord_one]
  simp only [Option.some.injEq, Shown.ov.injEq]
  constructor <;> omega

/-- C7 witness: a 2x2 overlay, bottom-right gravity, 10x10 target — pixel
(9,9) shows overlay pixel (1,1) and the placement rectangle sits at
(8,8,2,2). -/
theorem C7_overlay_gravity_witness :
    overlayPlaceRect ⟨⟨0, 0, 0, 0⟩, ⟨0, 0, 0, 0⟩, .bottomRight, 0, 0, false⟩
        ⟨2, 2, fun _ _ => 5⟩ 10 10 = ⟨8, 8, 2, 2⟩ ∧
    paintShowsAt ⟨⟨0, 0, 0, 0⟩, ⟨0, 0, 0, 0⟩, .bottomRight, 0, 0, false⟩
        ⟨⟨4, 4, fun _ _ => 7⟩, some ⟨2, 2, fun _ _ => 5⟩⟩ 10 10 9 9 =
      some (.ov 1 1) := by
  have hthm := C7_overlay_gravity ⟨⟨0, 0, 0, 0⟩, ⟨0, 0, 0, 0⟩, .bottomRight, 0, 0, false⟩
    ⟨⟨4, 4, fun _ _ => 7⟩, some ⟨2, 2, fun _ _ => 5⟩⟩ ⟨2, 2, fun _ _ => 5⟩ 10 10 9 9 rfl rfl
    rfl rfl rfl (by norm_num) (by norm_num) (by norm_num) (by norm_num) (by norm_num)
    (by norm_num) (by norm_num) (by norm_num)
  refine ⟨?_, ?_⟩
  · have h3 := hthm.2.2.1
    norm_num at h3
    convert h3 using 2
  · have h4 := hthm.2.2.2
    norm_num at h4
    convert h4 using 2

/-- C2 (amended): with the source image strictly larger than the margins
on both axes (so no resize clamping or out-of-bounds sampling), a target
at least the opposing margin sums, and no overlay, each of the four corner
regions of the composited output is byte-identical to the corresponding
corner of the source image, unscaled and anchored at the target's corner
(a corner with a zero margin has an empty region, matching the
paint-only-if-both-margins-nonzero guards). -/
theorem C2_corners_byte_identical (cfg : BackgroundImageConfig) (img : ThemeImageSurfaces)
    (width height X Y : Int) (hov : img.overlay = none)
    (hiw : marginL cfg + marginR cfg < (img.image.width : Int))
    (hih : marginT cfg + marginB cfg < (img.image.height : Int))
    (hwm : marginL cfg + marginR cfg ≤ width)
    (hhm : marginT cfg + marginB cfg ≤ height) :
    (0 ≤ X ∧ X < marginL cfg ∧ 0 ≤ Y ∧ Y < marginT cfg →
      paintShowsAt cfg img width height X Y = some (.bg X Y) ∧
      paintPixel cfg img width height X Y = img.image.px X.toNat Y.toNat) ∧
    (width - marginR cfg ≤ X ∧ X < width ∧ 0 ≤ Y ∧ Y < marginT cfg →
      paintShowsAt cfg img width height X Y =
        some (.bg (X - width + (img.image.width : Int)) Y) ∧
      paintPixel cfg img width height X Y =
        img.image.px (X - width + (img.image.width : Int)).toNat Y.toNat) ∧
    (0 ≤ X ∧ X < marginL cfg ∧ height - marginB cfg ≤ Y ∧ Y < height →
      paintShowsAt cfg img width height X Y =
        some (.bg X (Y - height + (img.image.height : Int))) ∧
      paintPixel cfg img width height X Y =
        img.image.px X.toNat (Y - height + (img.image.height : Int)).toNat) ∧
    (width - marginR cfg ≤ X ∧ X < width ∧ height - marginB cfg ≤ Y ∧ Y < height →
      paintShowsAt cfg img width height X Y =
        some (.bg (X - width + (img.image.width : Int))
          (Y - height + (img.image.height : Int))) ∧
      paintPixel cfg img width height X Y =
        img.image.px (X - width + (img.image.width : Int)).toNat
          (Y - height + (img.image.height : Int)).toNat) := by
  have hmL : 0 ≤ marginL cfg := Int.natCast_nonneg _
  have hmR : 0 ≤ marginR cfg := Int.natCast_nonneg _
  have hmT : 0 ≤ marginT cfg := Int.natCast_nonneg _
  have hmB : 0 ≤ marginB cfg := Int.natCast_nonneg _
  have hrwpos := resizeWidth_pos cfg img
  have hrhpos := resizeHeight_pos cfg img
  have hW : effWidth cfg img width = width := effWidth_nonneg_eq cfg img width (by omega)
  have hH : effHeight cfg img height = height := effHeight_nonneg_eq cfg img height (by omega)
  have hrw : resizeWidth cfg img = (img.image.width : Int) - marginL cfg - marginR cfg := by
    unfold resizeWidth
    rw [if_neg (by omega)]
  have hrh : resizeHeight cfg img = (img.image.height : Int) - marginT cfg - marginB cfg := by
    unfold resizeHeight
    rw [if_neg (by omega)]
  have htw : targetResizeW cfg img width = width - marginL cfg - marginR cfg := by
    unfold targetResizeW
    rw [hW]
  have hth : targetResizeH cfg img height = height - marginT cfg - marginB cfg := by
    unfold targetResizeH
    rw [hH]
  refine ⟨?_, ?_, ?_, ?_⟩
  · -- part 7: top-left corner
    rintro ⟨hx0, hxm, hy0, hym⟩
    have hn5 : ¬(0 < targetResizeH cfg img height ∧ 0 < targetResizeW cfg img width ∧
        inClip (pixelCenter X) (pixelCenter Y) (marginL cfg : ℚ) (marginT cfg : ℚ)
          (scaleXq cfg img width) (scaleYq cfg img height)
          (resizeWidth cfg img : ℚ) (resizeHeight cfg img : ℚ)) := by
      rintro ⟨-, -, hc⟩
      unfold scaleXq scaleYq at hc
      rw [inClip_scaleXY _ _ _ _ _ _ _ _ hrwpos hrhpos] at hc
      omega
    have hn6 : ¬(marginR cfg ≠ 0 ∧ 0 < targetResizeH cfg img height ∧
        inClip (pixelCenter X) (pixelCenter Y)
          ((effWidth cfg img width - marginR cfg : Int) : ℚ) (marginT cfg : ℚ)
          1 (scaleYq cfg img height) (marginR cfg : ℚ) (resizeHeight cfg img : ℚ)) := by
      rintro ⟨-, -, hc⟩
      unfold scaleYq at hc
      rw [inClip_scaleY _ _ _ _ _ _ _ hrhpos] at hc
      omega
    have hn4 : ¬(marginL cfg ≠ 0 ∧ 0 < targetResizeH cfg img height ∧
        inClip (pixelCenter X) (pixelCenter Y) ((0 : Int) : ℚ) (marginT cfg : ℚ)
          1 (scaleYq cfg img height) (marginL cfg : ℚ) (resizeHeight cfg img : ℚ)) := by
      rintro ⟨-, -, hc⟩
      unfold scaleYq at hc
      rw [inClip_scaleY _ _ _ _ _ _ _ hrhpos] at hc
      omega
    have hn8 : ¬(marginB cfg ≠ 0 ∧ 0 < targetResizeW cfg img width ∧
        inClip (pixelCenter X) (pixelCenter Y) (marginL cfg : ℚ)
          ((effHeight cfg img height - marginB cfg : Int) : ℚ)
          (scaleXq cfg img width) 1 (resizeWidth cfg img : ℚ) (marginB cfg : ℚ)) := by
      rintro ⟨-, -, hc⟩
      unfold scaleXq at hc
      rw [inClip_scaleX _ _ _ _ _ _ _ hrwpos] at hc
      omega
    have hn2 : ¬(marginT cfg ≠ 0 ∧ 0 < targetResizeW cfg img width ∧
        inClip (pixelCenter X) (pixelCenter Y) (marginL cfg : ℚ) ((0 : Int) : ℚ)
          (scaleXq cfg img width) 1 (resizeWidth cfg img : ℚ) (marginT cfg : ℚ)) := by
      rintro ⟨-, -, hc⟩
      unfold scaleXq at hc
      rw [inClip_scaleX _ _ _ _ _ _ _ hrwpos] at hc
      omega
    have hn9 : ¬(marginR cfg ≠ 0 ∧ marginT cfg ≠ 0 ∧
        inClip (pixelCenter X) (pixelCenter Y)
          ((effWidth cfg img width - marginR cfg : Int) : ℚ) ((0 : Int) : ℚ)
          1 1 (marginR cfg : ℚ) (marginT cfg : ℚ)) := by
      rintro ⟨-, -, hc⟩
      rw [inClip_one_one] at hc
      omega
    have hp7 : marginL cfg ≠ 0 ∧ marginT cfg ≠ 0 ∧
        inClip (pixelCenter X) (pixelCenter Y) ((0 : Int) : ℚ) ((0 : Int) : ℚ)
          1 1 (marginL cfg : ℚ) (marginT cfg : ℚ) := by
      refine ⟨by omega, by omega, ?_⟩
      rw [inClip_one_one]
      omega
    have hshow : bgShowsAt cfg img width height X Y = some (.bg X Y) := by
      unfold bgShowsAt
      rw [if_neg hn5, if_neg hn6, if_neg hn4, if_neg hn8, if_neg hn2, if_neg hn9, if_pos hp7,
        srcCoord_one, srcCoord_one]
      simp only [Option.some.injEq, Shown.bg.injEq]
      omega
    have hpaint : paintShowsAt cfg img width height X Y = some (.bg X Y) := by
      rw [paintShowsAt_overlay_none cfg img width height X Y hov, hshow]
    refine ⟨hpaint, ?_⟩
    unfold paintPixel
    rw [hpaint]
    simp only [shownValue]
    unfold sampleImg
    rw [if_pos (by omega)]
  · -- part 9: top-right corner
    rintro ⟨hxw, hxW, hy0, hym⟩
    have hn5 : ¬(0 < targetResizeH cfg img height ∧ 0 < targetResizeW cfg img width ∧
        inClip (pixelCenter X) (pixelCenter Y) (marginL cfg : ℚ) (marginT cfg : ℚ)
          (scaleXq cfg img width) (scaleYq cfg img height)
          (resizeWidth cfg img : ℚ) (resizeHeight cfg img : ℚ)) := by
      rintro ⟨-, -, hc⟩
      unfold scaleXq scaleYq at hc
      rw [inClip_scaleXY _ _ _ _ _ _ _ _ hrwpos hrhpos] at hc
      omega
    have hn6 : ¬(marginR cfg ≠ 0 ∧ 0 < targetResizeH cfg img height ∧
        inClip (pixelCenter X) (pixelCenter Y)
          ((effWidth cfg img width - marginR cfg : Int) : ℚ) (marginT cfg : ℚ)
          1 (scaleYq cfg img height) (marginR cfg : ℚ) (resizeHeight cfg img : ℚ)) := by
      rintro ⟨-, -, hc⟩
      unfold scaleYq at hc
      rw [inClip_scaleY _ _ _ _ _ _ _ hrhpos] at hc
      omega
    have hn4 : ¬(marginL cfg ≠ 0 ∧ 0 < targetResizeH cfg img height ∧
        inClip (pixelCenter X) (pixelCenter Y) ((0 : Int) : ℚ) (marginT cfg : ℚ)
          1 (scaleYq cfg img height) (marginL cfg : ℚ) (resizeHeight cfg img : ℚ)) := by
      rintro ⟨-, -, hc⟩
      unfold scaleYq at hc
      rw [inClip_scaleY _ _ _ _ _ _ _ hrhpos] at hc
      omega
    have hn8 : ¬(marginB cfg ≠ 0 ∧ 0 < targetResizeW cfg img width ∧
        inClip (pixelCenter X) (pixelCenter Y) (marginL cfg : ℚ)
          ((effHeight cfg img height - marginB cfg : Int) : ℚ)
          (scaleXq cfg img width) 1 (resizeWidth cfg img : ℚ) (marginB cfg : ℚ)) := by
      rintro ⟨-, -, hc⟩
      unfold scaleXq at hc
      rw [inClip_scaleX _ _ _ _ _ _ _ hrwpos] at hc
      omega
    have hn2 : ¬(marginT cfg ≠ 0 ∧ 0 < targetResizeW cfg img width ∧
        inClip (pixelCenter X) (pixelCenter Y) (marginL cfg : ℚ) ((0 : Int) : ℚ)
          (scaleXq cfg img width) 1 (resizeWidth cfg img : ℚ) (marginT cfg : ℚ)) := by
      rintro ⟨-, -, hc⟩
      unfold scaleXq at hc
      rw [inClip_scaleX _ _ _ _ _ _ _ hrwpos] at hc
      omega
    have hp9 : marginR cfg ≠ 0 ∧ marginT cfg ≠ 0 ∧
        inClip (pixelCenter X) (pixelCenter Y)
          ((effWidth cfg img width - marginR cfg : Int) : ℚ) ((0 : Int) : ℚ)
          1 1 (marginR cfg : ℚ) (marginT cfg : ℚ) := by
      refine ⟨by omega, by omega, ?_⟩
      rw [inClip_one_one]
      omega
    have hshow : bgShowsAt cfg img width height X Y =
        some (.bg (X - width + (img.image.width : Int)) Y) := by
      unfold bgShowsAt
      rw [if_neg hn5, if_neg hn6, if_neg hn4, if_neg hn8, if_neg hn2, if_pos hp9,
        srcCoord_one, srcCoord_one]
      simp only [Option.some.injEq, Shown.bg.injEq]
      omega
    have hpaint : paintShowsAt cfg img width height X Y =
        some (.bg (X - width + (img.image.width : Int)) Y) := by
      rw [paintShowsAt_overlay_none cfg img width height X Y hov, hshow]
    refine ⟨hpaint, ?_⟩
    unfold paintPixel
    rw [hpaint]
    simp only [shownValue]
    unfold sampleImg
    rw [if_pos (by omega)]
  · -- part 1: bottom-left corner
    rintro ⟨hx0, hxm, hyh, hyH⟩
    have hn5 : ¬(0 < targetResizeH cfg img height ∧ 0 < targetResizeW cfg img width ∧
        inClip (pixelCenter X) (pixelCenter Y) (marginL cfg : ℚ) (marginT cfg : ℚ)
          (scaleXq cfg img width) (scaleYq cfg img height)
          (resizeWidth cfg img : ℚ) (resizeHeight cfg img : ℚ)) := by
      rintro ⟨-, -, hc⟩
      unfold scaleXq scaleYq at hc
      rw [inClip_scaleXY _ _ _ _ _ _ _ _ hrwpos hrhpos] at hc
      omega
    have hn6 : ¬(marginR cfg ≠ 0 ∧ 0 < targetResizeH cfg img height ∧
        inClip (pixelCenter X) (pixelCenter Y)
          ((effWidth cfg img width - marginR cfg : Int) : ℚ) (marginT cfg : ℚ)
          1 (scaleYq cfg img height) (marginR cfg : ℚ) (resizeHeight cfg img : ℚ)) := by
      rintro ⟨-, -, hc⟩
      unfold scaleYq at hc
      rw [inClip_scaleY _ _ _ _ _ _ _ hrhpos] at hc
      omega
    have hn4 : ¬(marginL cfg ≠ 0 ∧ 0 < targetResizeH cfg img height ∧
        inClip (pixelCenter X) (pixelCenter Y) ((0 : Int) : ℚ) (marginT cfg : ℚ)
          1 (scaleYq cfg img height) (marginL cfg : ℚ) (resizeHeight cfg img : ℚ)) := by
      rintro ⟨-, -, hc⟩
      unfold scaleYq at hc
      rw [inClip_scaleY _ _ _ _ _ _ _ hrhpos] at hc
      omega
    have hn8 : ¬(marginB cfg ≠ 0 ∧ 0 < targetResizeW cfg img width ∧
        inClip (pixelCenter X) (pixelCenter Y) (marginL cfg : ℚ)
          ((effHeight cfg img height - marginB cfg : Int) : ℚ)
          (scaleXq cfg img width) 1 (resizeWidth cfg img : ℚ) (marginB cfg : ℚ)) := by
      rintro ⟨-, -, hc⟩
      unfold scaleXq at hc
      rw [inClip_scaleX _ _ _ _ _ _ _ hrwpos] at hc
      omega
    have hn2 : ¬(marginT cfg ≠ 0 ∧ 0 < targetResizeW cfg img width ∧
        inClip (pixelCenter X) (pixelCenter Y) (marginL cfg : ℚ) ((0 : Int) : ℚ)
          (scaleXq cfg img width) 1 (resizeWidth cfg img : ℚ) (marginT cfg : ℚ)) := by
      rintro ⟨-, -, hc⟩
      unfold scaleXq at hc
      rw [inClip_scaleX _ _ _ _ _ _ _ hrwpos] at hc
      omega
    have hn9 : ¬(marginR cfg ≠ 0 ∧ marginT cfg ≠ 0 ∧
        inClip (pixelCenter X) (pixelCenter Y)
          ((effWidth cfg img width - marginR cfg : Int) : ℚ) ((0 : Int) : ℚ)
          1 1 (marginR cfg : ℚ) (marginT cfg : ℚ)) := by
      rintro ⟨-, -, hc⟩
      rw [inClip_one_one] at hc
      omega
    have hn7 : ¬(marginL cfg ≠ 0 ∧ marginT cfg ≠ 0 ∧
        inClip (pixelCenter X) (pixelCenter Y) ((0 : Int) : ℚ) ((0 : Int) : ℚ)
          1 1 (marginL cfg : ℚ) (marginT cfg : ℚ)) := by
      rintro ⟨-, -, hc⟩
      rw [inClip_one_one] at hc
      omega
    have hn3 : ¬(marginR cfg ≠ 0 ∧ marginB cfg ≠ 0 ∧
        inClip (pixelCenter X) (pixelCenter Y)
          ((effWidth cfg img width - marginR cfg : Int) : ℚ)
          ((effHeight cfg img height - marginB cfg : Int) : ℚ)
          1 1 (marginR cfg : ℚ) (marginB cfg : ℚ)) := by
      rintro ⟨-, -, hc⟩
      rw [inClip_one_one] at hc
      omega
    have hp1 : marginL cfg ≠ 0 ∧ marginB cfg ≠ 0 ∧
        inClip (pixelCenter X) (pixelCenter Y) ((0 : Int) : ℚ)
          ((effHeight cfg img height - marginB cfg : Int) : ℚ)
          1 1 (marginL cfg : ℚ) (marginB cfg : ℚ) := by
      refine ⟨by omega, by omega, ?_⟩
      rw [inClip_one_one]
      omega
    have hshow : bgShowsAt cfg img width height X Y =
        some (.bg X (Y - height + (img.image.height : Int))) := by
      unfold bgShowsAt
      rw [if_neg hn5, if_neg hn6, if_neg hn4, if_neg hn8, if_neg hn2, if_neg hn9, if_neg hn7,
        if_neg hn3, if_pos hp1, srcCoord_one, srcCoord_one]
      simp only [Option.some.injEq, Shown.bg.injEq]
      omega
    have hpaint : paintShowsAt cfg img width height X Y =
        some (.bg X (Y - height + (img.image.height : Int))) := by
      rw [paintShowsAt_overlay_none cfg img width height X Y hov, hshow]
    refine ⟨hpaint, ?_⟩
    unfold paintPixel
    rw [hpaint]
    simp only [shownValue]
    unfold sampleImg
    rw [if_pos (by omega)]
  · -- part 3: bottom-right corner
    rintro ⟨hxw, hxW, hyh, hyH⟩
    have hn5 : ¬(0 < targetResizeH cfg img height ∧ 0 < targetResizeW cfg img width ∧
        inClip (pixelCenter X) (pixelCenter Y) (marginL cfg : ℚ) (marginT cfg : ℚ)
          (scaleXq cfg img width) (scaleYq cfg img height)
          (resizeWidth cfg img : ℚ) (resizeHeight cfg img : ℚ)) := by
      rintro ⟨-, -, hc⟩
      unfold scaleXq scaleYq at hc
      rw [inClip_scaleXY _ _ _ _ _ _ _ _ hrwpos hrhpos] at hc
      omega
    have hn6 : ¬(marginR cfg ≠ 0 ∧ 0 < targetResizeH cfg img height ∧
        inClip (pixelCenter X) (pixelCenter Y)
          ((effWidth cfg img width - marginR cfg : Int) : ℚ) (marginT cfg : ℚ)
          1 (scaleYq cfg img height) (marginR cfg : ℚ) (resizeHeight cfg img : ℚ)) := by
      rintro ⟨-, -, hc⟩
      unfold scaleYq at hc
      rw [inClip_scaleY _ _ _ _ _ _ _ hrhpos] at hc
      omega
    have hn4 : ¬(marginL cfg ≠ 0 ∧ 0 < targetResizeH cfg img height ∧
        inClip (pixelCenter X) (pixelCenter Y) ((0 : Int) : ℚ) (marginT cfg : ℚ)
          1 (scaleYq cfg img height) (marginL cfg : ℚ) (resizeHeight cfg img : ℚ)) := by
      rintro ⟨-, -, hc⟩
      unfold scaleYq at hc
      rw [inClip_scaleY _ _ _ _ _ _ _ hrhpos] at hc
      omega
    have hn8 : ¬(marginB cfg ≠ 0 ∧ 0 < targetResizeW cfg img width ∧
        inClip (pixelCenter X) (pixelCenter Y) (marginL cfg : ℚ)
          ((effHeight cfg img height - marginB cfg : Int) : ℚ)
          (scaleXq cfg img width) 1 (resizeWidth cfg img : ℚ) (marginB cfg : ℚ)) := by
      rintro ⟨-, -, hc⟩
      unfold scaleXq at hc
      rw [inClip_scaleX _ _ _ _ _ _ _ hrwpos] at hc
      omega
    have hn2 : ¬(marginT cfg ≠ 0 ∧ 0 < targetResizeW cfg img width ∧
        inClip (pixelCenter X) (pixelCenter Y) (marginL cfg : ℚ) ((0 : Int) : ℚ)
          (scaleXq cfg img width) 1 (resizeWidth cfg img : ℚ) (marginT cfg : ℚ)) := by
      rintro ⟨-, -, hc⟩
      unfold scaleXq at hc
      rw [inClip_scaleX _ _ _ _ _ _ _ hrwpos] at hc
      omega
    have hn9 : ¬(marginR cfg ≠ 0 ∧ marginT cfg ≠ 0 ∧
        inClip (pixelCenter X) (pixelCenter Y)
          ((effWidth cfg img width - marginR cfg : Int) : ℚ) ((0 : Int) : ℚ)
          1 1 (marginR cfg : ℚ) (marginT cfg : ℚ)) := by
      rintro ⟨-, -, hc⟩
      rw [inClip_one_one] at hc
      omega
    have hn7 : ¬(marginL cfg ≠ 0 ∧ marginT cfg ≠ 0 ∧
        inClip (pixelCenter X) (pixelCenter Y) ((0 : Int) : ℚ) ((0 : Int) : ℚ)
          1 1 (marginL cfg : ℚ) (marginT cfg : ℚ)) := by
      rintro ⟨-, -, hc⟩
      rw [inClip_one_one] at hc
      omega
    have hp3 : marginR cfg ≠ 0 ∧ marginB cfg ≠ 0 ∧
        inClip (pixelCenter X) (pixelCenter Y)
          ((effWidth cfg img width - marginR cfg : Int) : ℚ)
          ((effHeight cfg img height - marginB cfg : Int) : ℚ)
          1 1 (marginR cfg : ℚ) (marginB cfg : ℚ) := by
      refine ⟨by omega, by omega, ?_⟩
      rw [inClip_one_one]
      omega
    have hshow : bgShowsAt cfg img width height X Y =
        some (.bg (X - width + (img.image.width : Int))
          (Y - height + (img.image.height : Int))) := by
      unfold bgShowsAt
      rw [if_neg hn5, if_neg hn6, if_neg hn4, if_neg hn8, if_neg hn2, if_neg hn9, if_neg hn7,
        if_pos hp3, srcCoord_one, srcCoord_one]
      simp only [Option.some.injEq, Shown.bg.injEq]
      omega
    have hpaint : paintShowsAt cfg img width height X Y =
        some (.bg (X - width + (img.image.width : Int))
          (Y - height + (img.image.height : Int))) := by
      rw [paintShowsAt_overlay_none cfg img width height X Y hov, hshow]
    refine ⟨hpaint, ?_⟩
    unfold paintPixel
    rw [hpaint]
    simp only [shownValue]
    unfold sampleImg
    rw [if_pos (by omega)]

/-- C2 counterexample to the unamended claim: a 2x2 source with margins 1
on every side (the stretchable region clamps from 0 up to 1), target 4x4
(at least the opposing margin sums).  The top-right corner pixel (3,0) of
the output should be byte-identical to source corner pixel (1,0), whose
value is 11; instead the corner paint samples source column 2 — out of
bounds, transparent — so the output pixel is 0. -/
theorem C2_counterexample :
    paintPixel ⟨⟨1, 1, 1, 1⟩, ⟨0, 0, 0, 0⟩, .topLeft, 0, 0, false⟩
        ⟨⟨2, 2, fun x y => 10 * x + y + 1⟩, none⟩ 4 4 3 0 = 0 ∧
    (⟨2, 2, fun x y => 10 * x + y + 1⟩ : Img).px 1 0 = 11 := by
  refine ⟨?_, by norm_num⟩
  norm_num [paintPixel, paintShowsAt, bgShowsAt, shownValue, sampleImg, inClip, srcCoord,
    pixelCenter, marginL, marginR, marginT, marginB, resizeWidth, resizeHeight, effWidth,
    effHeight, targetResizeW, targetResizeH, scaleXq, scaleYq]

/-- C2 witness: a 4x4 source with margins 1 at target 6x6 — output pixel
(0,0) is the source's top-left corner pixel, value 1. -/
theorem C2_corners_byte_identical_witness :
    paintShowsAt ⟨⟨1, 1, 1, 1⟩, ⟨0, 0, 0, 0⟩, .topLeft, 0, 0, false⟩
        ⟨⟨4, 4, fun x y => x + y + 1⟩, none⟩ 6 6 0 0 = some (.bg 0 0) ∧
    paintPixel ⟨⟨1, 1, 1, 1⟩, ⟨0, 0, 0, 0⟩, .topLeft, 0, 0, false⟩
        ⟨⟨4, 4, fun x y => x + y + 1⟩, none⟩ 6 6 0 0 = 1 := by
  have h := C2_corners_byte_identical ⟨⟨1, 1, 1, 1⟩, ⟨0, 0, 0, 0⟩, .topLeft, 0, 0, false⟩
    ⟨⟨4, 4, fun x y => x + y + 1⟩, none⟩ 6 6 0 0 rfl
    (by norm_num [marginL, marginR]) (by norm_num [marginT, marginB])
    (by norm_num [marginL, marginR]) (by norm_num [marginT, marginB])
  have h2 := h.1 ⟨by norm_num, by norm_num [marginL], by norm_num, by norm_num [marginT]⟩
  refine ⟨h2.1, ?_⟩
  rw [h2.2]
  norm_num

/-- Helper: byteBits produces n bits. -/
theorem byteBits_length (byte n : Nat) : (byteBits byte n).length = n := by
  induction n generalizing byte with
  | zero => rfl
  | succ m ih => simp [byteBits, ih]

/-- Helper: the byte bit loop is the bit-list scanner on the byte's bits. -/
theorem stepBits_eq_scanBits (n byte x : Nat) (s : SpanScan) :
    stepBits byte x n s = scanBits (byteBits byte n) x s := by
  induction n generalizing byte x s with
  | zero => rfl
  | succ m ih =>
    simp only [stepBits, byteBits, scanBits]
    exact ih (byte / 2) (x + 1) _

/-- Helper: the bit-list scanner splits over append. -/
theorem scanBits_append (l1 l2 : List Bool) (x : Nat) (s : SpanScan) :
    scanBits (l1 ++ l2) x s = scanBits l2 (x + l1.length) (scanBits l1 x s) := by
  induction l1 generalizing x s with
  | nil => simp [scanBits]
  | cons b rest ih =>
    simp only [List.cons_append, scanBits, List.length_cons]
    show scanBits (rest ++ l2) (x + 1) (stepBit x b s) = _
    rw [ih (x + 1) (stepBit x b s)]
    congr 1
    omega

/-- Helper: bits equal to the running value leave the state unchanged. -/
theorem scanBits_const (bits : List Bool) (x : Nat) (s : SpanScan)
    (h : ∀ b ∈ bits, b = s.all) : scanBits bits x s = s := by
  induction bits generalizing x with
  | nil => rfl
  | cons b rest ih =>
    have hb : b = s.all := h b (List.mem_cons_self _ _)
    have hs : stepBit x b s = s := by
      unfold stepBit
      rw [if_pos hb]
    simp only [scanBits, hs]
    exact ih (x + 1) (fun b2 hb2 => h b2 (List.mem_cons_of_mem _ hb2))

/-- Helper: a prefix of a byte's bits. -/
theorem byteBits_take (n m byte : Nat) (h : n ≤ m) :
    (byteBits byte m).take n = byteBits byte n := by
  induction n generalizing m byte with
  | zero => rfl
  | succ k ih =>
    match m, h with
    | j + 1, h =>
      simp only [byteBits, List.take_succ_cons]
      rw [ih j (byte / 2) (by omega)]

/-- Helper: the all-ones byte. -/
theorem byteBits_255 : byteBits 255 8 = List.replicate 8 true := by decide

/-- Helper: the all-zeros byte. -/
theorem byteBits_0 : byteBits 0 8 = List.replicate 8 false := by decide

/-- Helper: bytesBits holds 8 bits per byte. -/
theorem bytesBits_length (bytes : List Nat) : (bytesBits bytes).length = 8 * bytes.length := by
  induction bytes with
  | nil => rfl
  | cons b rest ih =>
    simp only [bytesBits, List.length_append, byteBits_length, ih, List.length_cons]
    omega

/-- Helper: a byte equal to the running pattern scans to no change. -/
theorem scanBits_pattern (byte x : Nat) (s : SpanScan)
    (hbyte : byte = (if s.all then 255 else 0)) :
    scanBits (byteBits byte 8) x s = s := by
  cases ha : s.all
  · rw [ha] at hbyte
    simp at hbyte
    rw [hbyte, byteBits_0]
    exact scanBits_const _ x s (fun b hb => by rw [List.eq_of_mem_replicate hb, ha])
  · rw [ha] at hbyte
    simp at hbyte
    rw [hbyte, byteBits_255]
    exact scanBits_const _ x s (fun b hb => by rw [List.eq_of_mem_replicate hb, ha])

/-- Helper: the outer row loop, including the byte-skip optimization,
equals the plain bit-list scanner on the remaining bits. -/
theorem scanRowGo_eq_scanBits (bytes : List Nat) (width x : Nat) (s : SpanScan) :
    scanRowGo bytes width x s = scanBits ((bytesBits bytes).take (width - x)) x s := by
  induction bytes generalizing x s with
  | nil =>
    simp [scanRowGo, bytesBits, scanBits]
  | cons byte rest ih =>
    by_cases hx : x < width
    · have hsplit : (bytesBits (byte :: rest)).take (width - x) =
          (byteBits byte 8).take (width - x) ++ (bytesBits rest).take (width - x - 8) := by
        simp only [bytesBits]
        rw [List.take_append_eq_append_take, byteBits_length]
      by_cases hskip : 8 ≤ width - x ∧ byte = (if s.all then 255 else 0)
      · have hgo : scanRowGo (byte :: rest) width x s = scanRowGo rest width (x + 8) s := by
          conv_lhs => unfold scanRowGo
          rw [if_pos hx, if_pos hskip]
        have htake8 : (byteBits byte 8).take (width - x) = byteBits byte 8 :=
          List.take_of_length_le (by rw [byteBits_length]; omega)
        rw [hgo, ih (x + 8) s, hsplit, htake8, scanBits_append, byteBits_length,
          scanBits_pattern byte x s hskip.2]
        have he : width - (x + 8) = width - x - 8 := by omega
        rw [he]
      · have hgo : scanRowGo (byte :: rest) width x s =
            scanRowGo rest width (x + 8) (stepBits byte x (min 8 (width - x)) s) := by
          conv_lhs => unfold scanRowGo
          rw [if_pos hx, if_neg hskip]
        by_cases h8 : 8 ≤ width - x
        · have hmin : min 8 (width - x) = 8 := by omega
          have htake8 : (byteBits byte 8).take (width - x) = byteBits byte 8 :=
            List.take_of_length_le (by rw [byteBits_length]; omega)
          rw [hgo, hmin, ih (x + 8) _, hsplit, htake8, scanBits_append, byteBits_length,
            stepBits_eq_scanBits]
          have he : width - (x + 8) = width - x - 8 := by omega
          rw [he]
        · have hmin : min 8 (width - x) = width - x := by omega
          have hstep : stepBits byte x (min 8 (width - x)) s =
              scanBits (byteBits byte (width - x)) x s := by
            rw [hmin, stepBits_eq_scanBits]
          have hstop : ∀ s2 : SpanScan, scanRowGo rest width (x + 8) s2 = s2 := by
            intro s2
            cases rest with
            | nil => rfl
            | cons b2 r2 =>
              conv_lhs => unfold scanRowGo
              rw [if_neg (by omega)]
          rw [hgo, hstep, hstop, hsplit, byteBits_take (width - x) 8 byte (by omega)]
          have hrest0 : (bytesBits rest).take (width - x - 8) = [] := by
            rw [(by omega : width - x - 8 = 0)]
            rfl
          rw [hrest0, List.append_nil]
    · have hgo : scanRowGo (byte :: rest) width x s = s := by
        conv_lhs => unfold scanRowGo
        rw [if_neg hx]
      have htake : (bytesBits (byte :: rest)).take (width - x) = [] := by
        rw [(by omega : width - x = 0)]
        rfl
      rw [hgo, htake]
      rfl

/-- Helper: finalizing the scanner state equals the reference maximal-run
extraction, provided the row ends exactly at x + number of bits. -/
theorem finalize_scanBits (bits : List Bool) (x : Nat) (s : SpanScan) :
    finalizeScan (scanBits bits x s) (x + bits.length) =
      s.spans ++ runsAux bits x (if s.all then some s.prev1 else none) := by
  induction bits generalizing x s with
  | nil =>
    obtain ⟨a, p, sp⟩ := s
    cases a <;> simp [scanBits, finalizeScan, runsAux]
  | cons b rest ih =>
    obtain ⟨a, p, sp⟩ := s
    have hlen : x + (b :: rest).length = (x + 1) + rest.length := by
      simp only [List.length_cons]
      omega
    rw [hlen]
    cases a <;> cases b
    · -- in a 0-run, bit 0: no change
      have hst : stepBit x false ⟨false, p, sp⟩ = ⟨false, p, sp⟩ := by
        unfold stepBit
        rw [if_pos rfl]
      simp only [scanBits, hst]
      rw [ih (x + 1) ⟨false, p, sp⟩]
      simp [runsAux]
    · -- in a 0-run, bit 1: open a run at x
      have hst : stepBit x true ⟨false, p, sp⟩ = ⟨true, x, sp⟩ := by
        unfold stepBit
        rw [if_neg (by simp), if_neg (by simp)]
      simp only [scanBits, hst]
      rw [ih (x + 1) ⟨true, x, sp⟩]
      simp [runsAux]
    · -- in a 1-run, bit 0: close the run, emitting [p, x)
      have hst : stepBit x false ⟨true, p, sp⟩ = ⟨false, p, sp ++ [(p, x)]⟩ := by
        unfold stepBit
        rw [if_neg (by simp), if_pos rfl]
      simp only [scanBits, hst]
      rw [ih (x + 1) ⟨false, p, sp ++ [(p, x)]⟩]
      simp [runsAux]
    · -- in a 1-run, bit 1: no change
      have hst : stepBit x true ⟨true, p, sp⟩ = ⟨true, p, sp⟩ := by
        unfold stepBit
        rw [if_pos rfl]
      simp only [scanBits, hst]
      rw [ih (x + 1) ⟨true, p, sp⟩]
      simp [runsAux]

/-- Helper: the row scan is the reference maximal-run extraction of the
row's first `width` bits (the byte rows of an A1 raster always hold at
least width bits: the stride is rounded up). -/
theorem scanRow_eq_runsAux (bytes : List Nat) (width : Nat)
    (h : width ≤ 8 * bytes.length) :
    scanRow bytes width = runsAux ((bytesBits bytes).take width) 0 none := by
  have hlen8 : (bytesBits bytes).length = 8 * bytes.length := bytesBits_length bytes
  unfold scanRow
  rw [scanRowGo_eq_scanBits]
  have hw : width - 0 = width := by omega
  rw [hw]
  have hlen : ((bytesBits bytes).take width).length = width := by
    rw [List.length_take]
    omega
  have hres := finalize_scanBits ((bytesBits bytes).take width) 0 ⟨false, 0, []⟩
  rw [hlen] at hres
  simpa using hres

/-- Helper: span coverage of the reference run extraction — a position is
covered by a span exactly when it is a 1-bit of the remaining list or
lies inside the carried-in open run. -/
theorem runsAux_cover (bits : List Bool) (x : Nat) (opt : Option Nat) (x2 : Nat)
    (hst : ∀ st, opt = some st → st ≤ x) :
    (∃ sp ∈ runsAux bits x opt, sp.1 ≤ x2 ∧ x2 < sp.2) ↔
      ((x ≤ x2 ∧ x2 - x < bits.length ∧ bits.getD (x2 - x) false = true) ∨
        (∃ st, opt = some st ∧ st ≤ x2 ∧ x2 < x)) := by
  induction bits generalizing x opt with
  | nil =>
    cases opt with
    | none => simp [runsAux]
    | some st =>
      constructor
      · rintro ⟨sp, hsp, h1, h2⟩
        simp only [runsAux, List.mem_singleton] at hsp
        subst hsp
        exact Or.inr ⟨st, rfl, h1, h2⟩
      · rintro (⟨-, h2, -⟩ | ⟨st2, hopt, h1, h2⟩)
        · simp at h2
        · have he : st = st2 := by injection hopt
          subst he
          exact ⟨(st, x), by simp [runsAux], h1, h2⟩
  | cons b rest ih =>
    have hgd : x < x2 → ((b :: rest).getD (x2 - x) false = rest.getD (x2 - (x + 1)) false) := by
      intro h
      have he : x2 - x = (x2 - (x + 1)) + 1 := by omega
      rw [he, List.getD_cons_succ]
    cases opt with
    | some st =>
      have hstx := hst st rfl
      cases b
      · -- bit 0: the open run closes here
        have hrw : runsAux (false :: rest) x (some st) =
            (st, x) :: runsAux rest (x + 1) none := by
          simp [runsAux]
        rw [hrw]
        constructor
        · rintro ⟨sp, hsp, h1, h2⟩
          rcases List.mem_cons.mp hsp with he | hmem
          · subst he
            exact Or.inr ⟨st, rfl, h1, h2⟩
          · have hcov := (ih (x + 1) none (by simp)).mp ⟨sp, hmem, h1, h2⟩
            rcases hcov with ⟨ha1, ha2, ha3⟩ | ⟨st2, hopt, -⟩
            · refine Or.inl ⟨by omega, by simpa using (by omega : x2 - x < rest.length + 1), ?_⟩
              rw [hgd (by omega)]
              exact ha3
            · exact absurd hopt (by simp)
        · rintro (⟨ha1, ha2, ha3⟩ | ⟨st2, hopt, h1, h2⟩)
          · rcases Nat.lt_or_ge x x2 with hxx | hxx
            · have hcov := (ih (x + 1) none (by simp)).mpr
                (Or.inl ⟨by omega, by simp at ha2 ⊢; omega, by rw [← hgd hxx]; exact ha3⟩)
              obtain ⟨sp, hmem, hc1, hc2⟩ := hcov
              exact ⟨sp, List.mem_cons_of_mem _ hmem, hc1, hc2⟩
            · have hx2 : x2 = x := by omega
              subst hx2
              rw [(by omega : x2 - x2 = 0)] at ha3
              simp at ha3
          · have he : st = st2 := by injection hopt
            subst he
            exact ⟨(st, x), List.mem_cons_self _ _, h1, h2⟩
      · -- bit 1: the run continues
        have hrw : runsAux (true :: rest) x (some st) = runsAux rest (x + 1) (some st) := by
          simp [runsAux]
        rw [hrw, ih (x + 1) (some st) (fun st2 h2 => by injection h2 with h2; omega)]
        constructor
        · rintro (⟨ha1, ha2, ha3⟩ | ⟨st2, hopt, h1, h2⟩)
          · refine Or.inl ⟨by omega, by simpa using (by omega : x2 - x < rest.length + 1), ?_⟩
            rw [hgd (by omega)]
            exact ha3
          · have he : st = st2 := by injection hopt
            subst he
            rcases Nat.lt_or_ge x2 x with hxx | hxx
            · exact Or.inr ⟨st, rfl, h1, hxx⟩
            · have hx2 : x2 = x := by omega
              subst hx2
              refine Or.inl ⟨le_refl x2, by simp, ?_⟩
              rw [(by omega : x2 - x2 = 0)]
              rfl
        · rintro (⟨ha1, ha2, ha3⟩ | ⟨st2, hopt, h1, h2⟩)
          · rcases Nat.lt_or_ge x x2 with hxx | hxx
            · refine Or.inl ⟨by omega, by simp at ha2 ⊢; omega, ?_⟩
              rw [← hgd hxx]
              exact ha3
            · have hx2 : x2 = x := by omega
              subst hx2
              exact Or.inr ⟨st, rfl, by omega, by omega⟩
          · have he : st = st2 := by injection hopt
            subst he
            exact Or.inr ⟨st, rfl, h1, by omega⟩
    | none =>
      cases b
      · -- bit 0 outside a run: nothing happens
        have hrw : runsAux (false :: rest) x none = runsAux rest (x + 1) none := by
          simp [runsAux]
        rw [hrw, ih (x + 1) none (by simp)]
        constructor
        · rintro (⟨ha1, ha2, ha3⟩ | ⟨st2, hopt, -⟩)
          · refine Or.inl ⟨by omega, by simpa using (by omega : x2 - x < rest.length + 1), ?_⟩
            rw [hgd (by omega)]
            exact ha3
          · exact absurd hopt (by simp)
        · rintro (⟨ha1, ha2, ha3⟩ | ⟨st2, hopt, -⟩)
          · rcases Nat.lt_or_ge x x2 with hxx | hxx
            · refine Or.inl ⟨by omega, by simp at ha2 ⊢; omega, ?_⟩
              rw [← hgd hxx]
              exact ha3
            · have hx2 : x2 = x := by omega
              subst hx2
              rw [(by omega : x2 - x2 = 0)] at ha3
              simp at ha3
          · exact absurd hopt (by simp)
      · -- bit 1 outside a run: a run opens at x
        have hrw : runsAux (true :: rest) x none = runsAux rest (x + 1) (some x) := by
          simp [runsAux]
        rw [hrw, ih (x + 1) (some x) (fun st2 h2 => by injection h2 with h2; omega)]
        constructor
        · rintro (⟨ha1, ha2, ha3⟩ | ⟨st2, hopt, h1, h2⟩)
          · refine Or.inl ⟨by omega, by simpa using (by omega : x2 - x < rest.length + 1), ?_⟩
            rw [hgd (by omega)]
            exact ha3
          · have he : x = st2 := by injection hopt
            subst he
            have hx2 : x2 = x := by omega
            subst hx2
            refine Or.inl ⟨le_refl x2, by simp, ?_⟩
            rw [(by omega : x2 - x2 = 0)]
            rfl
        · rintro (⟨ha1, ha2, ha3⟩ | ⟨st2, hopt, -⟩)
          · rcases Nat.lt_or_ge x x2 with hxx | hxx
            · refine Or.inl ⟨by omega, by simp at ha2 ⊢; omega, ?_⟩
              rw [← hgd hxx]
              exact ha3
            · have hx2 : x2 = x := by omega
              subst hx2
              exact Or.inr ⟨x2, rfl, le_refl x2, by omega⟩
          · exact absurd hopt (by simp)

/-- Helper: the reference runs are nonempty, bounded, ordered, and
pairwise disjoint. -/
theorem runsAux_spans (bits : List Bool) (x : Nat) (opt : Option Nat)
    (hst : ∀ st, opt = some st → st < x) :
    (∀ sp ∈ runsAux bits x opt, sp.1 < sp.2 ∧ sp.2 ≤ x + bits.length ∧
      opt.getD x ≤ sp.1) ∧
    List.Pairwise (fun sp1 sp2 => sp1.2 ≤ sp2.1) (runsAux bits x opt) := by
  induction bits generalizing x opt with
  | nil =>
    cases opt with
    | none => simp [runsAux]
    | some st =>
      have hstx := hst st rfl
      constructor
      · rintro sp hsp
        simp only [runsAux, List.mem_singleton] at hsp
        subst hsp
        exact ⟨hstx, by simp, by simp⟩
      · simp [runsAux]
  | cons b rest ih =>
    cases opt with
    | some st =>
      have hstx := hst st rfl
      cases b
      · have hrw : runsAux (false :: rest) x (some st) =
            (st, x) :: runsAux rest (x + 1) none := by
          simp [runsAux]
        obtain ⟨ihm, ihp⟩ := ih (x + 1) none (by simp)
        rw [hrw]
        constructor
        · rintro sp hsp
          rcases List.mem_cons.mp hsp with he | hmem
          · subst he
            refine ⟨hstx, ?_, by simp⟩
            simp only [List.length_cons]
            omega
          · obtain ⟨m1, m2, m3⟩ := ihm sp hmem
            simp only [Option.getD_none] at m3
            refine ⟨m1, ?_, ?_⟩
            · simp only [List.length_cons]
              omega
            · simp only [Option.getD_some]
              omega
        · rw [List.pairwise_cons]
          refine ⟨?_, ihp⟩
          rintro sp hmem
          obtain ⟨-, -, m3⟩ := ihm sp hmem
          simp only [Option.getD_none] at m3
          omega
      · have hrw : runsAux (true :: rest) x (some st) = runsAux rest (x + 1) (some st) := by
          simp [runsAux]
        obtain ⟨ihm, ihp⟩ := ih (x + 1) (some st)
          (fun st2 h2 => by injection h2 with h2; omega)
        rw [hrw]
        refine ⟨?_, ihp⟩
        rintro sp hmem
        obtain ⟨m1, m2, m3⟩ := ihm sp hmem
        refine ⟨m1, ?_, m3⟩
        simp only [List.length_cons]
        omega
    | none =>
      cases b
      · have hrw : runsAux (false :: rest) x none = runsAux rest (x + 1) none := by
          simp [runsAux]
        obtain ⟨ihm, ihp⟩ := ih (x + 1) none (by simp)
        rw [hrw]
        refine ⟨?_, ihp⟩
        rintro sp hmem
        obtain ⟨m1, m2, m3⟩ := ihm sp hmem
        simp only [Option.getD_none] at m3 ⊢
        refine ⟨m1, ?_, by omega⟩
        simp only [List.length_cons]
        omega
      · have hrw : runsAux (true :: rest) x none = runsAux rest (x + 1) (some x) := by
          simp [runsAux]
        obtain ⟨ihm, ihp⟩ := ih (x + 1) (some x)
          (fun st2 h2 => by injection h2 with h2; omega)
        rw [hrw]
        refine ⟨?_, ihp⟩
        rintro sp hmem
        obtain ⟨m1, m2, m3⟩ := ihm sp hmem
        simp only [Option.getD_some] at m3
        simp only [Option.getD_none]
        refine ⟨m1, ?_, by omega⟩
        simp only [List.length_cons]
        omega

/-- Helper: indexing into the first n bits of a byte is testBit. -/
theorem byteBits_getD (n byte i : Nat) (h : i < n) :
    (byteBits byte n).getD i false = byte.testBit i := by
  induction n generalizing byte i with
  | zero => omega
  | succ m ih =>
    cases i with
    | zero =>
      show (decide (byte % 2 = 1) :: byteBits (byte / 2) m).getD 0 false = _
      rw [List.getD_cons_zero, Nat.testBit_zero]
    | succ j =>
      show (decide (byte % 2 = 1) :: byteBits (byte / 2) m).getD (j + 1) false = _
      rw [List.getD_cons_succ, ih (byte / 2) j (by omega), Nat.testBit_add_one]

/-- Helper: indexing into the concatenated bit rows is rowBit (bit x mod 8 of
byte x div 8). -/
theorem bytesBits_getD (bytes : List Nat) (x : Nat) (h : x < 8 * bytes.length) :
    (bytesBits bytes).getD x false = rowBit bytes x := by
  induction bytes generalizing x with
  | nil => simp at h
  | cons b rest ih =>
    by_cases h8 : x < 8
    · show (byteBits b 8 ++ bytesBits rest).getD x false = _
      rw [List.getD_append _ _ _ _ (by rw [byteBits_length]; exact h8)]
      rw [byteBits_getD 8 b x h8]
      unfold rowBit
      rw [show x / 8 = 0 by omega, show x % 8 = x by omega]
      rfl
    · show (byteBits b 8 ++ bytesBits rest).getD x false = _
      rw [List.getD_append_right _ _ _ _ (by rw [byteBits_length]; omega)]
      rw [byteBits_length]
      rw [ih (x - 8) (by simp only [List.length_cons] at h; omega)]
      unfold rowBit
      rw [show x / 8 = (x - 8) / 8 + 1 by omega, List.getD_cons_succ,
        show x % 8 = (x - 8) % 8 by omega]

/-- Helper: getD commutes with take below the cut. -/
theorem take_getD (l : List Bool) (n i : Nat) (hn : i < n) (hl : i < l.length) :
    (l.take n).getD i false = l.getD i false := by
  have hlen : i < (l.take n).length := by
    rw [List.length_take]
    omega
  rw [List.getD_eq_getElem _ _ hlen, List.getD_eq_getElem _ _ hl]
  exact List.getElem_take l

/-- Helper: getD of a mapped range below the bound. -/
theorem range_map_getD {α : Type} (f : Nat → α) (height y : Nat) (d : α) (h : y < height) :
    ((List.range height).map f).getD y d = f y := by
  rw [List.getD_eq_getElem _ _ (by simpa using h)]
  simp

/-- Helper: a boolean list that is constant under getD is a replicate. -/
theorem eq_replicate_of_getD (l : List Bool) (b : Bool)
    (h : ∀ i, i < l.length → l.getD i false = b) :
    l = List.replicate l.length b := by
  induction l with
  | nil => rfl
  | cons a rest ih =>
    have h0 := h 0 (by simp)
    rw [List.getD_cons_zero] at h0
    subst h0
    rw [List.length_cons, List.replicate_succ]
    congr 1
    apply ih
    intro i hi
    have h2 := h (i + 1) (by simp only [List.length_cons]; omega)
    rw [List.getD_cons_succ] at h2
    exact h2

/-- Helper: run extraction over an all-true list with an open run yields one
span through the end. -/
theorem runsAux_replicate_true (n x st : Nat) :
    runsAux (List.replicate n true) x (some st) = [(st, x + n)] := by
  induction n generalizing x with
  | zero => simp [runsAux]
  | succ m ih =>
    rw [List.replicate_succ]
    have h1 : runsAux (true :: List.replicate m true) x (some st) =
        runsAux (List.replicate m true) (x + 1) (some st) := by
      simp [runsAux]
    rw [h1, ih (x + 1), show x + 1 + m = x + (m + 1) by omega]

/-- Helper: run extraction over a nonempty all-true list is one full span. -/
theorem runsAux_replicate_true0 (n : Nat) (hn : 0 < n) :
    runsAux (List.replicate n true) 0 none = [(0, n)] := by
  cases n with
  | zero => omega
  | succ m =>
    rw [List.replicate_succ]
    have h1 : runsAux (true :: List.replicate m true) 0 none =
        runsAux (List.replicate m true) 1 (some 0) := by
      simp [runsAux]
    rw [h1, runsAux_replicate_true m 1 0, Nat.add_comm 1 m]

/-- Helper: run extraction over an all-false list yields no spans. -/
theorem runsAux_replicate_false (n x : Nat) :
    runsAux (List.replicate n false) x none = [] := by
  induction n generalizing x with
  | zero => simp [runsAux]
  | succ m ih =>
    rw [List.replicate_succ]
    have h1 : runsAux (false :: List.replicate m false) x none =
        runsAux (List.replicate m false) (x + 1) none := by
      simp [runsAux]
    rw [h1, ih (x + 1)]

/-- Helper: unfolding equation of bands on a cons. -/
theorem bands_cons (r : List (Nat × Nat)) (rest : List (List (Nat × Nat))) :
    bands (r :: rest) =
      match bands rest with
      | [] => [(1, r)]
      | (hh, r2) :: bs => if r = r2 then (hh + 1, r) :: bs else (1, r) :: (hh, r2) :: bs :=
  rfl

/-- Helper: bands on a cons when the tail has no bands. -/
theorem bands_cons_nil (r : List (Nat × Nat)) (rest : List (List (Nat × Nat)))
    (h : bands rest = []) : bands (r :: rest) = [(1, r)] := by
  rw [bands_cons, h]

/-- Helper: bands on a cons merging into an equal leading band. -/
theorem bands_cons_eq (r : List (Nat × Nat)) (rest : List (List (Nat × Nat)))
    (hh : Nat) (r2 : List (Nat × Nat)) (bs : List (Nat × List (Nat × Nat)))
    (h : bands rest = (hh, r2) :: bs) (he : r = r2) :
    bands (r :: rest) = (hh + 1, r) :: bs := by
  rw [bands_cons, h]
  show (if r = r2 then (hh + 1, r) :: bs else (1, r) :: (hh, r2) :: bs) = _
  rw [if_pos he]

/-- Helper: bands on a cons starting a new band. -/
theorem bands_cons_ne (r : List (Nat × Nat)) (rest : List (List (Nat × Nat)))
    (hh : Nat) (r2 : List (Nat × Nat)) (bs : List (Nat × List (Nat × Nat)))
    (h : bands rest = (hh, r2) :: bs) (he : ¬r = r2) :
    bands (r :: rest) = (1, r) :: (hh, r2) :: bs := by
  rw [bands_cons, h]
  show (if r = r2 then (hh + 1, r) :: bs else (1, r) :: (hh, r2) :: bs) = _
  rw [if_neg he]

/-- Helper: expanding the bands of a row list recovers the row list. -/
theorem flattenBands_bands (rows : List (List (Nat × Nat))) :
    flattenBands (bands rows) = rows := by
  induction rows with
  | nil => rfl
  | cons r rest ih =>
    cases hb : bands rest with
    | nil =>
      rw [bands_cons_nil r rest hb]
      have hrest : rest = [] := by
        rw [← ih, hb]
        rfl
      subst hrest
      rfl
    | cons p bs =>
      obtain ⟨hh, r2⟩ := p
      by_cases he : r = r2
      · rw [bands_cons_eq r rest hh r2 bs hb he, ← ih, hb]
        subst he
        simp [flattenBands, List.replicate_succ]
      · rw [bands_cons_ne r rest hh r2 bs hb he, ← ih, hb]
        simp [flattenBands]

/-- Helper: every band's span list is one of the rows. -/
theorem bands_mem (rows : List (List (Nat × Nat))) (p : Nat × List (Nat × Nat))
    (hp : p ∈ bands rows) : p.2 ∈ rows := by
  induction rows with
  | nil => simp [bands] at hp
  | cons r rest ih =>
    cases hb : bands rest with
    | nil =>
      rw [bands_cons_nil r rest hb] at hp
      rw [List.mem_singleton] at hp
      subst hp
      exact List.mem_cons_self _ _
    | cons q bs =>
      obtain ⟨hh, r2⟩ := q
      by_cases he : r = r2
      · rw [bands_cons_eq r rest hh r2 bs hb he] at hp
        rcases List.mem_cons.mp hp with h1 | h1
        · subst h1
          exact List.mem_cons_self _ _
        · exact List.mem_cons_of_mem _ (ih (by rw [hb]; exact List.mem_cons_of_mem _ h1))
      · rw [bands_cons_ne r rest hh r2 bs hb he] at hp
        rcases List.mem_cons.mp hp with h1 | h1
        · subst h1
          exact List.mem_cons_self _ _
        · exact List.mem_cons_of_mem _ (ih (by rw [hb]; exact h1))

/-- Helper: a nonempty constant row list forms one band. -/
theorem bands_replicate (n : Nat) (r : List (Nat × Nat)) (hn : 0 < n) :
    bands (List.replicate n r) = [(n, r)] := by
  induction n with
  | zero => omega
  | succ m ih =>
    rw [List.replicate_succ]
    cases m with
    | zero => rfl
    | succ k =>
      rw [bands_cons_eq r (List.replicate (k + 1) r) (k + 1) r []
        (ih (Nat.succ_pos k)) rfl]

/-- Helper: unfolding equation of emitBands on a cons. -/
theorem emitBands_cons (y hh : Nat) (spans : List (Nat × Nat))
    (bs : List (Nat × List (Nat × Nat))) :
    emitBands y ((hh, spans) :: bs) =
      spans.map
        (fun sp => ⟨(sp.1 : Int), (y : Int), ((sp.2 - sp.1 : Nat) : Int), (hh : Int)⟩) ++
        emitBands (y + hh) bs :=
  rfl

/-- Helper: containment in a band rectangle in terms of Nat span data. -/
theorem containsPt_band (sp : Nat × Nat) (y0 hh : Nat) (x y : Int) :
    Rect.containsPt ⟨(sp.1 : Int), (y0 : Int), ((sp.2 - sp.1 : Nat) : Int), (hh : Int)⟩ x y ↔
      ((sp.1 : Int) ≤ x ∧ x < (sp.2 : Int) ∧ (y0 : Int) ≤ y ∧ y < (y0 : Int) + (hh : Int)) := by
  unfold Rect.containsPt
  dsimp only
  omega

/-- Helper: every rectangle emitted from bands below lies at or below the top. -/
theorem emitBands_top_ge (bs : List (Nat × List (Nat × Nat))) (y0 : Nat) (r : Rect)
    (h : r ∈ emitBands y0 bs) : (y0 : Int) ≤ r.top := by
  induction bs generalizing y0 with
  | nil => simp [emitBands] at h
  | cons p bs ih =>
    obtain ⟨hh, spans⟩ := p
    rw [emitBands_cons] at h
    rcases List.mem_append.mp h with h1 | h1
    · obtain ⟨sp, hsp, rfl⟩ := List.mem_map.mp h1
      show (y0 : Int) ≤ (y0 : Int)
      exact le_refl _
    · have h2 := ih (y0 + hh) h1
      omega

/-- Helper: point coverage of the emitted rectangles is row bit membership of
the flattened band rows. -/
theorem emitBands_cover (bs : List (Nat × List (Nat × Nat))) (y0 x y : Nat) :
    (∃ r ∈ emitBands y0 bs, r.containsPt (x : Int) (y : Int)) ↔
      (y0 ≤ y ∧ y - y0 < (flattenBands bs).length ∧
        ∃ sp ∈ (flattenBands bs).getD (y - y0) [], sp.1 ≤ x ∧ x < sp.2) := by
  induction bs generalizing y0 with
  | nil => simp [emitBands, flattenBands]
  | cons p bs ih =>
    obtain ⟨hh, spans⟩ := p
    have hflen : (flattenBands ((hh, spans) :: bs)).length =
        hh + (flattenBands bs).length := by
      simp [flattenBands]
    by_cases hyh : y0 ≤ y ∧ y < y0 + hh
    · obtain ⟨hy1, hy2⟩ := hyh
      have hgetD : (flattenBands ((hh, spans) :: bs)).getD (y - y0) [] = spans := by
        show (List.replicate hh spans ++ flattenBands bs).getD (y - y0) [] = spans
        rw [List.getD_append _ _ _ _ (by rw [List.length_replicate]; omega)]
        rw [List.getD_eq_getElem _ _ (by rw [List.length_replicate]; omega)]
        simp
      constructor
      · rintro ⟨r, hr, hc⟩
        rw [emitBands_cons] at hr
        rcases List.mem_append.mp hr with h1 | h1
        · obtain ⟨sp, hsp, rfl⟩ := List.mem_map.mp h1
          rw [containsPt_band] at hc
          refine ⟨hy1, by rw [hflen]; omega, ?_⟩
          rw [hgetD]
          exact ⟨sp, hsp, by omega, by omega⟩
        · have h2 := (ih (y0 + hh)).mp ⟨r, h1, hc⟩
          exact absurd h2.1 (by omega)
      · rintro ⟨-, -, sp, hsp, hc1, hc2⟩
        rw [hgetD] at hsp
        refine ⟨⟨(sp.1 : Int), (y0 : Int), ((sp.2 - sp.1 : Nat) : Int), (hh : Int)⟩, ?_, ?_⟩
        · rw [emitBands_cons]
          exact List.mem_append.mpr (Or.inl (List.mem_map.mpr ⟨sp, hsp, rfl⟩))
        · rw [containsPt_band]
          omega
    · have hidx : y0 ≤ y → y0 + hh ≤ y →
          (flattenBands ((hh, spans) :: bs)).getD (y - y0) [] =
            (flattenBands bs).getD (y - (y0 + hh)) [] := by
        intro h1 h2
        show (List.replicate hh spans ++ flattenBands bs).getD (y - y0) [] = _
        rw [List.getD_append_right _ _ _ _ (by rw [List.length_replicate]; omega)]
        rw [List.length_replicate]
        congr 1
        omega
      constructor
      · rintro ⟨r, hr, hc⟩
        rw [emitBands_cons] at hr
        rcases List.mem_append.mp hr with h1 | h1
        · obtain ⟨sp, hsp, rfl⟩ := List.mem_map.mp h1
          rw [containsPt_band] at hc
          exact absurd ⟨by omega, by omega⟩ hyh
        · obtain ⟨b1, b2, sp, hsp, hsc⟩ := (ih (y0 + hh)).mp ⟨r, h1, hc⟩
          refine ⟨by omega, by rw [hflen]; omega, ?_⟩
          rw [hidx (by omega) b1]
          exact ⟨sp, hsp, hsc⟩
      · rintro ⟨hy1, hy2, sp, hsp, hc1, hc2⟩
        rw [hflen] at hy2
        have hyge : y0 + hh ≤ y := by omega
        rw [hidx hy1 hyge] at hsp
        obtain ⟨r, hr, hc⟩ := (ih (y0 + hh)).mpr ⟨hyge, by omega, sp, hsp, hc1, hc2⟩
        refine ⟨r, ?_, hc⟩
        rw [emitBands_cons]
        exact List.mem_append.mpr (Or.inr hr)

/-- Helper: rectangles emitted from bands with ordered spans are pairwise
disjoint (bands are vertically disjoint, spans horizontally). -/
theorem emitBands_pairwise (bs : List (Nat × List (Nat × Nat))) (y0 : Nat)
    (hsp : ∀ p ∈ bs, List.Pairwise (fun sp1 sp2 => sp1.2 ≤ sp2.1) p.2) :
    List.Pairwise (fun r1 r2 => ∀ x y : Int, ¬(r1.containsPt x y ∧ r2.containsPt x y))
      (emitBands y0 bs) := by
  induction bs generalizing y0 with
  | nil => exact List.Pairwise.nil
  | cons p bs ih =>
    obtain ⟨hh, spans⟩ := p
    rw [emitBands_cons]
    apply List.pairwise_append.mpr
    refine ⟨?_, ih (y0 + hh) (fun q hq => hsp q (List.mem_cons_of_mem _ hq)), ?_⟩
    · refine List.Pairwise.map _ ?_ (hsp (hh, spans) (List.mem_cons_self _ _))
      rintro sp1 sp2 hle x y ⟨hc1, hc2⟩
      rw [containsPt_band] at hc1 hc2
      omega
    · rintro r1 h1 r2 h2 x y ⟨hc1, hc2⟩
      obtain ⟨sp, hsp1, rfl⟩ := List.mem_map.mp h1
      rw [containsPt_band] at hc1
      have ht := emitBands_top_ge bs (y0 + hh) r2 h2
      unfold Rect.containsPt at hc2
      omega

/-- Helper: the rows fed to the banding are the per-row scans. -/
theorem mask_rows_getD (rows : List (List Nat)) (width height y : Nat) (hy : y < height) :
    ((List.range height).map (fun y2 => scanRow (rows.getD y2 []) width)).getD y [] =
      scanRow (rows.getD y []) width :=
  range_map_getD _ height y [] hy

/-- Helper: a pixel inside the target is covered by some mask rectangle exactly
when its row bit is set. -/
theorem mask_cover (rows : List (List Nat)) (width height x y : Nat)
    (hw : ∀ y2, y2 < height → width ≤ 8 * (rows.getD y2 []).length)
    (hx : x < width) (hy : y < height) :
    (∃ r ∈ Theme.mask rows width height, r.containsPt (x : Int) (y : Int)) ↔
      rowBit (rows.getD y []) x = true := by
  have hcov := emitBands_cover
    (bands ((List.range height).map (fun y2 => scanRow (rows.getD y2 []) width))) 0 x y
  rw [flattenBands_bands] at hcov
  have hlen : ((List.range height).map
      (fun y2 => scanRow (rows.getD y2 []) width)).length = height := by simp
  rw [hlen] at hcov
  have hget : ((List.range height).map
      (fun y2 => scanRow (rows.getD y2 []) width)).getD (y - 0) [] =
      scanRow (rows.getD y []) width := by
    rw [Nat.sub_zero]
    exact mask_rows_getD rows width height y hy
  rw [hget] at hcov
  rw [scanRow_eq_runsAux (rows.getD y []) width (hw y hy)] at hcov
  have hrun := runsAux_cover ((bytesBits (rows.getD y [])).take width) 0 none x
    (by intro st h; exact Option.noConfusion h)
  have hwy := hw y hy
  have hbitlen : ((bytesBits (rows.getD y [])).take width).length = width := by
    rw [List.length_take, bytesBits_length]
    omega
  have hbit : ((bytesBits (rows.getD y [])).take width).getD (x - 0) false =
      rowBit (rows.getD y []) x := by
    rw [Nat.sub_zero]
    rw [take_getD _ _ _ hx (by rw [bytesBits_length]; omega)]
    exact bytesBits_getD _ x (by omega)
  rw [hbitlen, hbit] at hrun
  unfold Theme.mask
  rw [hcov, hrun]
  constructor
  · rintro ⟨-, -, (⟨-, -, hb⟩ | ⟨st, hst, -⟩)⟩
    · exact hb
    · exact Option.noConfusion hst
  · intro hb
    exact ⟨by omega, by omega, Or.inl ⟨by omega, by omega, hb⟩⟩

/-- Helper: the mask rectangles are pairwise disjoint. -/
theorem mask_pairwise (rows : List (List Nat)) (width height : Nat)
    (hw : ∀ y2, y2 < height → width ≤ 8 * (rows.getD y2 []).length) :
    List.Pairwise (fun r1 r2 => ∀ x y : Int, ¬(r1.containsPt x y ∧ r2.containsPt x y))
      (Theme.mask rows width height) := by
  unfold Theme.mask
  apply emitBands_pairwise
  intro p hp
  have hp2 := bands_mem _ p hp
  obtain ⟨y2, hy2m, he⟩ := List.mem_map.mp hp2
  have hy2 := List.mem_range.mp hy2m
  rw [← he, scanRow_eq_runsAux _ _ (hw y2 hy2)]
  exact (runsAux_spans _ 0 none (by intro st h; exact Option.noConfusion h)).2

/-- Helper: a fully opaque rendering masks to the single full rectangle. -/
theorem mask_full (rows : List (List Nat)) (width height : Nat)
    (hw : ∀ y2, y2 < height → width ≤ 8 * (rows.getD y2 []).length)
    (hwpos : 0 < width) (hhpos : 0 < height)
    (hall : ∀ y2, y2 < height → ∀ x2, x2 < width → rowBit (rows.getD y2 []) x2 = true) :
    Theme.mask rows width height = [⟨0, 0, (width : Int), (height : Int)⟩] := by
  unfold Theme.mask
  have hrow : ∀ y, y < height → scanRow (rows.getD y []) width = [(0, width)] := by
    intro y hy
    have hwy := hw y hy
    rw [scanRow_eq_runsAux _ _ (hw y hy)]
    have hlen : ((bytesBits (rows.getD y [])).take width).length = width := by
      rw [List.length_take, bytesBits_length]
      omega
    have hbits : (bytesBits (rows.getD y [])).take width = List.replicate width true := by
      have h2 := eq_replicate_of_getD ((bytesBits (rows.getD y [])).take width) true ?_
      · rw [hlen] at h2
        exact h2
      · intro i hi
        rw [hlen] at hi
        rw [take_getD _ _ _ hi (by rw [bytesBits_length]; omega)]
        rw [bytesBits_getD _ i (by omega)]
        exact hall y hy i hi
    rw [hbits]
    exact runsAux_replicate_true0 width hwpos
  have hrows2 : (List.range height).map (fun y2 => scanRow (rows.getD y2 []) width) =
      List.replicate height [(0, width)] := by
    apply List.eq_replicate_iff.mpr
    refine ⟨by simp, ?_⟩
    intro b hb
    obtain ⟨y2, hy2, he⟩ := List.mem_map.mp hb
    rw [← he]
    exact hrow y2 (List.mem_range.mp hy2)
  rw [hrows2, bands_replicate height ([(0, width)]) hhpos, emitBands_cons]
  simp [emitBands]

/-- Helper: an all-transparent rendering masks to the empty list. -/
theorem mask_empty (rows : List (List Nat)) (width height : Nat)
    (hw : ∀ y2, y2 < height → width ≤ 8 * (rows.getD y2 []).length)
    (hall : ∀ y2, y2 < height → ∀ x2, x2 < width → rowBit (rows.getD y2 []) x2 = false) :
    Theme.mask rows width height = [] := by
  unfold Theme.mask
  have hrow : ∀ y, y < height → scanRow (rows.getD y []) width = [] := by
    intro y hy
    have hwy := hw y hy
    rw [scanRow_eq_runsAux _ _ (hw y hy)]
    have hlen : ((bytesBits (rows.getD y [])).take width).length = width := by
      rw [List.length_take, bytesBits_length]
      omega
    have hbits : (bytesBits (rows.getD y [])).take width =
        List.replicate width false := by
      have h2 := eq_replicate_of_getD ((bytesBits (rows.getD y [])).take width) false ?_
      · rw [hlen] at h2
        exact h2
      · intro i hi
        rw [hlen] at hi
        rw [take_getD _ _ _ hi (by rw [bytesBits_length]; omega)]
        rw [bytesBits_getD _ i (by omega)]
        exact hall y hy i hi
    rw [hbits]
    exact runsAux_replicate_false width 0
  have hrows2 : (List.range height).map (fun y2 => scanRow (rows.getD y2 []) width) =
      List.replicate height [] := by
    apply List.eq_replicate_iff.mpr
    refine ⟨by simp, ?_⟩
    intro b hb
    obtain ⟨y2, hy2, he⟩ := List.mem_map.mp hb
    rw [← he]
    exact hrow y2 (List.mem_range.mp hy2)
  rw [hrows2]
  cases height with
  | zero => rfl
  | succ m =>
    rw [bands_replicate _ _ (Nat.succ_pos m), emitBands_cons]
    simp [emitBands]

/-- C1: Theme::mask returns pairwise non-overlapping rectangles; every pixel of
the target whose bit is set in the 1-bit rendering lies in exactly one returned
rectangle, and every pixel whose bit is clear lies in none; a fully opaque
width×height rendering yields the single rectangle (0,0,width,height), and an
all-transparent rendering yields the empty list.  The rendering is given as its
packed byte rows; each row must carry at least width bits. -/
theorem C1_mask (rows : List (List Nat)) (width height : Nat)
    (hw : ∀ y2, y2 < height → width ≤ 8 * (rows.getD y2 []).length) :
    List.Pairwise (fun r1 r2 => ∀ x y : Int, ¬(r1.containsPt x y ∧ r2.containsPt x y))
      (Theme.mask rows width height) ∧
    (∀ x y : Nat, x < width → y < height →
      (rowBit (rows.getD y []) x = true →
        ∃! r, r ∈ Theme.mask rows width height ∧ r.containsPt (x : Int) (y : Int)) ∧
      (rowBit (rows.getD y []) x = false →
        ∀ r ∈ Theme.mask rows width height, ¬r.containsPt (x : Int) (y : Int))) ∧
    (0 < width → 0 < height →
      (∀ y2, y2 < height → ∀ x2, x2 < width → rowBit (rows.getD y2 []) x2 = true) →
      Theme.mask rows width height = [⟨0, 0, (width : Int), (height : Int)⟩]) ∧
    ((∀ y2, y2 < height → ∀ x2, x2 < width → rowBit (rows.getD y2 []) x2 = false) →
      Theme.mask rows width height = []) := by
  refine ⟨mask_pairwise rows width height hw, ?_, mask_full rows width height hw,
    mask_empty rows width height hw⟩
  intro x y hx hy
  constructor
  · intro hb
    obtain ⟨r, hr, hc⟩ := (mask_cover rows width height x y hw hx hy).mpr hb
    refine ⟨r, ⟨hr, hc⟩, ?_⟩
    rintro r2 ⟨hr2, hc2⟩
    by_contra hne
    have hpw := mask_pairwise rows width height hw
    have hR := hpw.forall
      (by rintro q1 q2 h x2 y2 ⟨hq1, hq2⟩; exact h x2 y2 ⟨hq2, hq1⟩) hr2 hr hne
    exact hR (x : Int) (y : Int) ⟨hc2, hc⟩
  · intro hb r hr hc
    have h2 := (mask_cover rows width height x y hw hx hy).mp ⟨r, hr, hc⟩
    rw [hb] at h2
    exact Bool.noConfusion h2

/-- Witness for C1 on a concrete rendering: one row, byte 7, width 3 — fully
opaque, so the mask is the single full rectangle. -/
theorem C1_mask_witness :
    (∀ y2, y2 < 1 → 3 ≤ 8 * (([[7]] : List (List Nat)).getD y2 []).length) ∧
    (0 < 3 ∧ 0 < 1 ∧
      ∀ y2, y2 < 1 → ∀ x2, x2 < 3 → rowBit (([[7]] : List (List Nat)).getD y2 []) x2 = true) ∧
    Theme.mask [[7]] 3 1 = [⟨0, 0, ((3 : Nat) : Int), ((1 : Nat) : Int)⟩] := by
  refine ⟨by decide, ⟨by decide, by decide, by decide⟩, ?_⟩
  exact (C1_mask [[7]] 3 1 (by decide)).2.2.1 (by decide) (by decide) (by decide)

end ThemeSpec
